import Mathlib

/-!
Verification of the Ownership-Intelligence-Platform analytical engines.

This file gives a shallow embedding of the three core engines of the
repository and proves the frozen claims about them:

* the Equity Penetration Engine
  (`app/services/graph/penetration.py`, duplicated in
  `app/services/graph_service.py`): `get_equity_penetration` and
  `get_equity_penetration_with_paths`;
* the Hybrid Entity Resolution Engine (`app/services/graph_rag.py`):
  `resolve_graphrag`;
* the Risk Rule Evaluation Engine (`app/services/risk_service.py`):
  `evaluate_kb_risk`.

Modelling conventions:

* Python floats are modelled as exact rationals (`ℚ`).  The claims are
  about the algebraic scoring/aggregation contracts, not about IEEE-754
  rounding, so the idealised field semantics is the faithful reading.
* The Neo4j graph is modelled as an explicit node list and edge list.
  The Cypher pattern `(root)-[:OWNS*1..10]->(n:Entity)` enumerates
  directed paths that never repeat a relationship (Cypher relationship
  uniqueness), of length between 1 and 10, further restricted by
  `WHERE length(p) <= $depth`; `trailsFrom` below reproduces exactly
  that enumeration, identifying a relationship by its index in the edge
  list (so parallel edges are distinct relationships, as in Neo4j).
  Aggregation `RETURN n, sum(pen)` groups rows by target node;
  `ORDER BY penetration DESC` is modelled as a stable sort on the
  grouped rows (Neo4j does not specify the relative order of ties; the
  model keeps the first-encounter order of the traversal, which is one
  admissible execution).
* Python's `sorted` (stable, Timsort) is modelled by
  `List.insertionSort`, which is likewise stable.
* Python string operations are re-implemented over `String.data`
  (`lowerStr`, `upperStr`, `trimStr`, `strContains`, `strLeB`) so that
  they compute by kernel reduction; they agree with `str.lower`,
  `str.upper`, `str.strip`, the `in` operator and `<=` on the ASCII
  strings manipulated by the service code.
* Python truthiness on optional strings/numbers is modelled explicitly
  (`pyOrS`, `pyOrQ`, `truthyS`): `None` and `""` (resp. `0`) are falsy.
-/

namespace OIP

/-! ## String helpers (kernel-computable models of the Python `str` ops) -/

/-- Model of Python `str.lower` (code-point-wise lowercasing). -/
def lowerStr (s : String) : String := ⟨s.data.map Char.toLower⟩

/-- Model of Python `str.upper` (code-point-wise uppercasing). -/
def upperStr (s : String) : String := ⟨s.data.map Char.toUpper⟩

/-- Model of Python `str.strip` (drop leading/trailing whitespace). -/
def trimStr (s : String) : String :=
  ⟨((s.data.dropWhile Char.isWhitespace).reverse.dropWhile Char.isWhitespace).reverse⟩

/-- Model of the Python `needle in hay` substring test. -/
def strContains (hay needle : String) : Bool :=
  (List.range (hay.data.length + 1)).any fun i => needle.data.isPrefixOf (hay.data.drop i)

/-- Code-point lexicographic strict order on character lists, as Python
compares strings. -/
def charListLt : List Char → List Char → Bool
  | [], [] => false
  | [], _ :: _ => true
  | _ :: _, [] => false
  | a :: as, b :: bs =>
    if a.val < b.val then true
    else if b.val < a.val then false
    else charListLt as bs

/-- Python string `<`. -/
def strLtB (a b : String) : Bool := charListLt a.data b.data

/-- Python string `<=`. -/
def strLeB (a b : String) : Bool := strLtB a b || a == b

/-- Python `a or b` on optional strings (`None`/`""` are falsy). -/
def pyOrS (a b : Option String) : Option String :=
  match a with
  | some s => if s = "" then b else some s
  | none => b

/-- Python `a or b` on optional numbers (`None`/`0` are falsy). -/
def pyOrQ (a b : Option ℚ) : Option ℚ :=
  match a with
  | some x => if x = 0 then b else some x
  | none => b

/-- Python truthiness of an optional string. -/
def truthyS (o : Option String) : Bool :=
  match o with
  | some s => s ≠ ""
  | none => false

/-! ## Equity Penetration Engine: data model

`app/services/graph/penetration.py`.  An `Entity` node carries `id`,
`name`, `type`; an `OWNS` relationship carries an optional `stake`
property (percentage in `[0,100]`, possibly absent). -/

/-- A graph node (`(:Entity {id, name, type})`). -/
structure GNode where
  id : String
  name : String
  ty : String
deriving DecidableEq, Repr

/-- A directed `OWNS` relationship; `stake` may be absent (`null`). -/
structure GEdge where
  src : String
  dst : String
  stake : Option ℚ
deriving DecidableEq, Repr

/-- A graph snapshot: the Entity nodes and the OWNS relationships.
Relationships are identified by their index in `edges` (so parallel
edges between the same pair are distinct, as in Neo4j). -/
structure Graph where
  nodes : List GNode
  edges : List GEdge
deriving DecidableEq, Repr

/-- Look up an entity node by id (`MATCH (r:Entity {id: $id})`,
first row). -/
def Graph.findNode (g : Graph) (i : String) : Option GNode :=
  g.nodes.find? fun n => n.id = i

/-- The relationship at index `i` (dummy edge out of range; trails only
ever hold in-range indices). -/
def Graph.edgeAt (g : Graph) (i : Nat) : GEdge :=
  (g.edges[i]?).getD ⟨"", "", none⟩

/-- All directed `OWNS` trails (paths that do not repeat a
relationship, Cypher's path semantics) of length `1..fuel` starting at
`cur`, avoiding the already-used relationship indices `used`.  Trails
are listed in depth-first order following the edge-list order, each
edge immediately followed by its extensions. -/
def trailsFrom (g : Graph) : Nat → String → List Nat → List (List Nat)
  | 0, _, _ => []
  | fuel + 1, cur, used =>
    ((List.range g.edges.length).filter
        fun i => decide (i ∉ used) && ((g.edgeAt i).src == cur)).flatMap
      fun i => [i] :: (trailsFrom g fuel (g.edgeAt i).dst (i :: used)).map (i :: ·)

/-- All trails of length `1..fuel` starting at `root`
(`(root)-[:OWNS*1..]->` with relationship uniqueness). -/
def allTrails (g : Graph) (fuel : Nat) (root : String) : List (List Nat) :=
  trailsFrom g fuel root []

/-- The end node id of a trail (`n.id` for the matched pattern). -/
def pathTarget (g : Graph) (p : List Nat) : String :=
  match p.getLast? with
  | some i => (g.edgeAt i).dst
  | none => ""

/-- Path penetration:
`reduce(prod = 1.0, r IN relationships(p) | prod * coalesce(r.stake, 100.0)/100.0)`. -/
def pathPen (g : Graph) (p : List Nat) : ℚ :=
  p.foldl (fun acc i => acc * ((g.edgeAt i).stake.getD 100) / 100) 1

/-- The trails the penetration query keeps: `(root)-[:OWNS*1..10]->(n:Entity)`
with `WHERE length(p) <= $depth`, i.e. length `1..min(depth,10)`, and the
final node carries the `:Entity` label (is present in the node list). -/
def codeTrails (g : Graph) (root : String) (depth : Int) : List (List Nat) :=
  (allTrails g ((min depth 10).toNat) root).filter
    fun p => (g.findNode (pathTarget g p)).isSome

/-- First-occurrence deduplication (the grouping keys of the Cypher
aggregation, in encounter order). -/
def firstDedupAux : List String → List String → List String
  | _, [] => []
  | seen, t :: ts =>
    if t ∈ seen then firstDedupAux seen ts
    else t :: firstDedupAux (t :: seen) ts

/-- First-occurrence deduplication of a key list. -/
def firstDedup (l : List String) : List String := firstDedupAux [] l

/-- The Cypher aggregation `RETURN n, sum(pen)`: group the path rows by
target node and sum the path penetrations of each group. -/
def aggregate (g : Graph) (ps : List (List Nat)) : List (String × ℚ) :=
  (firstDedup (ps.map (pathTarget g))).map fun t =>
    (t, ((ps.filter fun p => pathTarget g p == t).map (pathPen g)).sum)

/-- Descending order by a rational key; `List.insertionSort` with this
relation is a stable descending sort, the model of `ORDER BY ... DESC`
and of Python `sorted(..., reverse=True)`. -/
def keyDesc {α : Type} (k : α → ℚ) : α → α → Prop := fun a b => k b ≤ k a

instance {α : Type} (k : α → ℚ) : DecidableRel (keyDesc k) := fun a b =>
  inferInstanceAs (Decidable (k b ≤ k a))

instance {α : Type} (k : α → ℚ) : IsTotal α (keyDesc k) :=
  ⟨fun a b => le_total (k b) (k a)⟩

instance {α : Type} (k : α → ℚ) : IsTrans α (keyDesc k) :=
  ⟨fun _ _ _ h1 h2 => le_trans h2 h1⟩

/-- An item of the basic penetration result:
`{id, name, type, penetration}` with `penetration` already scaled
to a percentage. -/
structure PenItem where
  id : String
  name : String
  ty : String
  penetration : ℚ
deriving DecidableEq, Repr

/-- The basic penetration result `{root, items}`. -/
structure PenResult where
  root : GNode
  items : List PenItem
deriving DecidableEq, Repr

/-- Build a result item for an aggregated row (the query returns the
target node's `id`, `name`, `type` and the summed penetration; the
service multiplies by `100.0`). -/
def mkPenItem (g : Graph) (row : String × ℚ) : PenItem :=
  let n := (g.findNode row.1).getD ⟨row.1, "", ""⟩
  ⟨row.1, n.name, n.ty, row.2 * 100⟩

/-- Model of `get_equity_penetration(root_id, depth)`
(`app/services/graph/penetration.py`).  `none` models the empty dict
`{}` returned when the root id does not exist. -/
def get_equity_penetration (g : Graph) (root_id : String) (depth : Int) :
    Option PenResult :=
  match g.findNode root_id with
  | none => none
  | some root =>
    let rows := List.insertionSort (keyDesc (fun r : String × ℚ => r.2))
      (aggregate g (codeTrails g root_id depth))
    some ⟨root, rows.map (mkPenItem g)⟩

/-- Spec-side definition (written to the spec's words, §4.1/§8): the
aggregate penetration of `t` seen from `root` is the sum of path
penetrations over all distinct directed ownership paths of length
`1..depth` from `root` to `t`.  `allTrails` enumerates every such
distinct path exactly once (`mem_allTrails`, `nodup_allTrails`). -/
def specPenetration (g : Graph) (root t : String) (depth : Nat) : ℚ :=
  (((allTrails g depth root).filter fun p => pathTarget g p == t).map
    (pathPen g)).sum

/-! ## Penetration variant with explicit paths -/

/-- A node element of a reported path:
`{id: node.id, name: node.name, type: node.type}`. -/
structure PathNode where
  id : String
  name : String
  ty : String
deriving DecidableEq, Repr

/-- A relationship element of a reported path:
`{from: startNode(rel).id, to: endNode(rel).id, stake: rel.stake}`. -/
structure PathRel where
  from_id : String
  to_id : String
  stake : Option ℚ
deriving DecidableEq, Repr

/-- One reported contributing path
`{nodes, rels, path_penetration}` (penetration already scaled by 100
when it reaches the caller). -/
structure PathRecord where
  nodes : List PathNode
  rels : List PathRel
  path_penetration : ℚ
deriving DecidableEq, Repr

/-- An item of the with-paths result. -/
structure PathItem where
  id : String
  name : String
  ty : String
  penetration : ℚ
  paths : List PathRecord
deriving DecidableEq, Repr

/-- The with-paths result `{root, items}`. -/
structure PathsResult where
  root : GNode
  items : List PathItem
deriving DecidableEq, Repr

/-- The `nodes(p)` projection of a trail: the start node followed by
the end node of every relationship. -/
def pathNodeList (g : Graph) (root : String) (p : List Nat) : List PathNode :=
  (root :: p.map fun i => (g.edgeAt i).dst).map fun i =>
    let n := (g.findNode i).getD ⟨i, "", ""⟩
    ⟨i, n.name, n.ty⟩

/-- The `relationships(p)` projection of a trail. -/
def pathRelList (g : Graph) (p : List Nat) : List PathRel :=
  p.map fun i => ⟨(g.edgeAt i).src, (g.edgeAt i).dst, (g.edgeAt i).stake⟩

/-- A raw collected path row (before sorting/truncating/scaling). -/
def mkRawRecord (g : Graph) (root : String) (p : List Nat) : PathRecord :=
  ⟨pathNodeList g root p, pathRelList g p, pathPen g p⟩

/-- The Cypher aggregation of the with-paths query:
`RETURN n, sum(pen), collect({nodes, rels, path_penetration: pen})`,
grouped by target node, path rows collected in encounter order. -/
def aggregateWith (g : Graph) (ps : List (List Nat)) :
    List (String × ℚ × List (List Nat)) :=
  (firstDedup (ps.map (pathTarget g))).map fun t =>
    (t, ((ps.filter fun p => pathTarget g p == t).map (pathPen g)).sum,
      ps.filter fun p => pathTarget g p == t)

/-- Build a with-paths result item: sort the collected paths by raw
path penetration descending (`sorted(..., reverse=True)`, stable),
truncate to `max(0, int(max_paths or 0))`, then scale each retained
path penetration and the aggregate to percentages. -/
def mkPathItem (g : Graph) (root : String) (max_paths : Int)
    (row : String × ℚ × List (List Nat)) : PathItem :=
  let n := (g.findNode row.1).getD ⟨row.1, "", ""⟩
  let raw := (row.2.2.map (mkRawRecord g root)).insertionSort
    (keyDesc PathRecord.path_penetration)
  let top := (raw.take (max 0 max_paths).toNat).map fun r =>
    ⟨r.nodes, r.rels, r.path_penetration * 100⟩
  ⟨row.1, n.name, n.ty, row.2.1 * 100, top⟩

/-- Model of `get_equity_penetration_with_paths(root_id, depth, max_paths)`
(`app/services/graph/penetration.py`). -/
def get_equity_penetration_with_paths (g : Graph) (root_id : String)
    (depth : Int) (max_paths : Int) : Option PathsResult :=
  match g.findNode root_id with
  | none => none
  | some root =>
    let rows := List.insertionSort
      (keyDesc (fun r : String × ℚ × List (List Nat) => r.2.1))
      (aggregateWith g (codeTrails g root_id depth))
    some ⟨root, rows.map (mkPathItem g root_id max_paths)⟩

/-! ## Penetration: supporting lemmas -/

lemma mem_firstDedupAux (l : List String) :
    ∀ (seen : List String) (x : String),
      x ∈ firstDedupAux seen l ↔ x ∈ l ∧ x ∉ seen := by
  induction l with
  | nil => intro seen x; simp [firstDedupAux]
  | cons t ts ih =>
    intro seen x
    by_cases ht : t ∈ seen
    · by_cases hx : x = t
      · subst hx; simp [firstDedupAux, ht, ih]
      · simp [firstDedupAux, ht, ih, hx]
    · by_cases hx : x = t
      · subst hx; simp [firstDedupAux, ht, ih]
      · simp [firstDedupAux, ht, ih seen x, ih (t :: seen) x, hx]

lemma mem_firstDedup (l : List String) (x : String) :
    x ∈ firstDedup l ↔ x ∈ l := by
  simp [firstDedup, mem_firstDedupAux]

lemma aggregate_mem {g : Graph} {ps : List (List Nat)} {row : String × ℚ}
    (h : row ∈ aggregate g ps) :
    row.2 = ((ps.filter fun p => pathTarget g p == row.1).map (pathPen g)).sum
      ∧ row.1 ∈ ps.map (pathTarget g) := by
  unfold aggregate at h
  obtain ⟨t, ht, rfl⟩ := List.mem_map.mp h
  exact ⟨rfl, (mem_firstDedup _ _).mp ht⟩

lemma codeTrails_filter_target {g : Graph} {t : String} (root : String)
    (depth : Int) (ht : (g.findNode t).isSome) :
    (codeTrails g root depth).filter (fun p => pathTarget g p == t)
      = (allTrails g ((min depth 10).toNat) root).filter
          fun p => pathTarget g p == t := by
  unfold codeTrails
  rw [List.filter_filter]
  apply List.filter_congr
  intro p _
  by_cases hp : pathTarget g p = t
  · simp [hp, ht]
  · simp [hp]

/-- The trails with no outgoing edge at the start: the enumeration is
empty. -/
lemma trailsFrom_eq_nil_of_no_edges {g : Graph} {root : String}
    (h : ∀ e ∈ g.edges, e.src ≠ root) (fuel : Nat) (used : List Nat) :
    trailsFrom g fuel root used = [] := by
  cases fuel with
  | zero => rfl
  | succ f =>
    unfold trailsFrom
    have hfilter : ((List.range g.edges.length).filter
        fun i => decide (i ∉ used) && ((g.edgeAt i).src == root)) = [] := by
      apply List.filter_eq_nil_iff.mpr
      intro i hi
      have hlen : i < g.edges.length := List.mem_range.mp hi
      have hmem : g.edgeAt i ∈ g.edges := by
        have : g.edges[i]? = some g.edges[i] := List.getElem?_eq_getElem hlen
        simp [Graph.edgeAt, this]
      simp only [Bool.and_eq_true, decide_eq_true_eq, beq_iff_eq, not_and]
      intro _
      exact h _ hmem
    rw [hfilter]
    rfl

/-- A list of relationship indices forms a directed ownership chain
starting at `cur`: each index is in range, each relationship leaves the
node the previous one reached. -/
def isChainFrom (g : Graph) : String → List Nat → Prop
  | _, [] => True
  | cur, i :: rest =>
    i < g.edges.length ∧ (g.edgeAt i).src = cur ∧ isChainFrom g (g.edgeAt i).dst rest

/-- Characterisation of the trail enumeration: `trailsFrom` lists
exactly the nonempty ownership chains of length at most `fuel` that
repeat no relationship and avoid `used`. -/
lemma mem_trailsFrom (g : Graph) :
    ∀ (fuel : Nat) (cur : String) (used : List Nat) (p : List Nat),
      p ∈ trailsFrom g fuel cur used ↔
        p ≠ [] ∧ p.length ≤ fuel ∧ isChainFrom g cur p ∧ p.Nodup ∧ ∀ i ∈ p, i ∉ used := by
  intro fuel
  induction fuel with
  | zero =>
    intro cur used p
    simp only [trailsFrom, List.not_mem_nil, false_iff, not_and]
    intro hne hlen
    exact absurd (Nat.le_zero.mp hlen) (by simpa using hne)
  | succ f ih =>
    intro cur used p
    constructor
    · intro hp
      obtain ⟨i, hi, hpi⟩ := List.mem_flatMap.mp hp
      have hi' := List.mem_filter.mp hi
      have hrange : i < g.edges.length := List.mem_range.mp hi'.1
      obtain ⟨hnotused, hsrc⟩ := by
        have := hi'.2
        simp only [Bool.and_eq_true, decide_eq_true_eq, beq_iff_eq] at this
        exact this
      rcases List.mem_cons.mp hpi with rfl | hmap
      · refine ⟨by simp, by simp, ⟨hrange, hsrc, trivial⟩, by simp, ?_⟩
        intro j hj
        rw [List.mem_singleton.mp hj]
        exact hnotused
      · obtain ⟨q, hq, rfl⟩ := List.mem_map.mp hmap
        obtain ⟨hqne, hqlen, hqchain, hqnodup, hqavoid⟩ := (ih _ _ q).mp hq
        refine ⟨by simp, by simpa using Nat.succ_le_succ hqlen,
          ⟨hrange, hsrc, hqchain⟩, ?_, ?_⟩
        · refine List.nodup_cons.mpr ⟨?_, hqnodup⟩
          intro hiq
          exact (hqavoid i hiq) (List.mem_cons_self i used)
        · intro j hj
          rcases List.mem_cons.mp hj with rfl | hjq
          · exact hnotused
          · intro hju
            exact (hqavoid j hjq) (List.mem_cons_of_mem i hju)
    · rintro ⟨hne, hlen, hchain, hnodup, havoid⟩
      cases p with
      | nil => exact absurd rfl hne
      | cons i q =>
        obtain ⟨hrange, hsrc, hqchain⟩ := hchain
        apply List.mem_flatMap.mpr
        refine ⟨i, ?_, ?_⟩
        · apply List.mem_filter.mpr
          refine ⟨List.mem_range.mpr hrange, ?_⟩
          simp only [Bool.and_eq_true, decide_eq_true_eq, beq_iff_eq]
          exact ⟨havoid i (List.mem_cons_self i q), hsrc⟩
        · cases q with
          | nil => exact List.mem_cons_self _ _
          | cons j r =>
            apply List.mem_cons_of_mem
            apply List.mem_map.mpr
            refine ⟨j :: r, ?_, rfl⟩
            apply (ih _ _ (j :: r)).mpr
            refine ⟨by simp, Nat.le_of_succ_le_succ (by simpa using hlen),
              hqchain, (List.nodup_cons.mp hnodup).2, ?_⟩
            intro k hk hmem
            rcases List.mem_cons.mp hmem with rfl | hku
            · exact (List.nodup_cons.mp hnodup).1 hk
            · exact (havoid k (List.mem_cons_of_mem i hk)) hku

/-- Each trail is listed exactly once by the enumeration. -/
lemma nodup_trailsFrom (g : Graph) :
    ∀ (fuel : Nat) (cur : String) (used : List Nat),
      (trailsFrom g fuel cur used).Nodup := by
  intro fuel
  induction fuel with
  | zero => intro _ _; exact List.nodup_nil
  | succ f ih =>
    intro cur used
    apply List.nodup_flatMap.mpr
    constructor
    · intro i _
      refine List.nodup_cons.mpr ⟨?_, ?_⟩
      · intro hmem
        obtain ⟨q, hq, hiq⟩ := List.mem_map.mp hmem
        have : q = [] := by
          have := congrArg List.tail hiq.symm
          simpa using this
        subst this
        exact absurd ((mem_trailsFrom g _ _ _ _).mp hq).1 (by simp)
      · refine List.Nodup.map ?_ (ih _ _)
        intro a b hab
        simpa using hab
    · have hfilter : ((List.range g.edges.length).filter
          fun i => decide (i ∉ used) && ((g.edgeAt i).src == cur)).Nodup :=
        (List.nodup_range _).filter _
      refine hfilter.imp ?_
      intro i j hij
      intro p hpi hpj
      have hhead_i : p.head? = some i := by
        rcases List.mem_cons.mp hpi with rfl | hmi
        · rfl
        · obtain ⟨q, _, rfl⟩ := List.mem_map.mp hmi
          rfl
      have hhead_j : p.head? = some j := by
        rcases List.mem_cons.mp hpj with rfl | hmj
        · rfl
        · obtain ⟨q, _, rfl⟩ := List.mem_map.mp hmj
          rfl
      rw [hhead_i] at hhead_j
      exact hij (Option.some_inj.mp hhead_j)

/-- The enumeration `allTrails g depth root` lists exactly the distinct directed
ownership paths of length `1..depth` starting at `root`, each once: the
enumeration underlying `specPenetration` matches the spec's
"every distinct directed ownership path of length ≤ depth". -/
lemma mem_allTrails (g : Graph) (depth : Nat) (root : String) (p : List Nat) :
    p ∈ allTrails g depth root ↔
      p ≠ [] ∧ p.length ≤ depth ∧ isChainFrom g root p ∧ p.Nodup := by
  rw [allTrails, mem_trailsFrom]
  simp

/-- The spec-side path enumeration has no duplicate path. -/
lemma nodup_allTrails (g : Graph) (depth : Nat) (root : String) :
    (allTrails g depth root).Nodup :=
  nodup_trailsFrom g depth root []

/-! ## Claim C1 — penetration aggregation -/

/-- Claim C1 (amended: the traversal clamps the path length at the hard
bound of 10 hops, `OWNS*1..10`): for every graph and every root that
exists, each item returned by `get_equity_penetration(root_id, depth)`
reports a penetration equal to 100 times the sum, over every distinct
directed ownership path of length `1..min(depth,10)` from the root to
the item's node, of the product over the path's edges of `stake/100`
(a missing stake contributing a multiplier of 1). -/
theorem penetration_aggregates_spec_paths (g : Graph) (root_id : String)
    (depth : Int) (res : PenResult)
    (h : get_equity_penetration g root_id depth = some res) :
    ∀ it ∈ res.items,
      it.penetration = 100 * specPenetration g root_id it.id ((min depth 10).toNat) := by
  unfold get_equity_penetration at h
  cases hf : g.findNode root_id with
  | none => rw [hf] at h; exact absurd h (by simp)
  | some root =>
    rw [hf] at h
    simp only [Option.some_inj] at h
    subst h
    intro it hit
    obtain ⟨row, hrow, rfl⟩ := List.mem_map.mp hit
    have hrow' : row ∈ aggregate g (codeTrails g root_id depth) :=
      (List.mem_insertionSort _).mp hrow
    obtain ⟨hsum, hmem⟩ := aggregate_mem hrow'
    obtain ⟨p, hp, hpt⟩ := List.mem_map.mp hmem
    have hex : (g.findNode row.1).isSome := by
      have := List.mem_filter.mp hp
      rw [hpt] at this
      exact this.2
    show (mkPenItem g row).penetration
      = 100 * specPenetration g root_id (mkPenItem g row).id ((min depth 10).toNat)
    simp only [mkPenItem]
    rw [hsum, specPenetration, ← codeTrails_filter_target root_id depth hex, mul_comm]

/-- The worked example of spec §8: `A` owns `B` at 50%, `A` owns `C` at
40%, `B` owns `C` at 30%. -/
def gPen : Graph :=
  { nodes := [⟨"A", "a", "Person"⟩, ⟨"B", "b", "Company"⟩, ⟨"C", "c", "Company"⟩],
    edges := [⟨"A", "B", some 50⟩, ⟨"A", "C", some 40⟩, ⟨"B", "C", some 30⟩] }

/-- Witness for C1 at the spec's worked example: `penetrate("A", 3)`
reports `C` at `55.0 = 100 × (40/100 + 50/100 × 30/100)`. -/
theorem penetration_aggregates_spec_paths_witness :
    (⟨"C", "c", "Company", 55⟩ : PenItem).penetration
      = 100 * specPenetration gPen "A" (⟨"C", "c", "Company", 55⟩ : PenItem).id
          ((min (3 : Int) 10).toNat) :=
  penetration_aggregates_spec_paths gPen "A" 3
    ⟨⟨"A", "a", "Person"⟩, [⟨"C", "c", "Company", 55⟩, ⟨"B", "b", "Company", 50⟩]⟩
    (by
      simp +decide [gPen, get_equity_penetration, Graph.findNode, aggregate, codeTrails,
        allTrails, trailsFrom, Graph.edgeAt, pathTarget, pathPen, firstDedup, firstDedupAux,
        keyDesc, List.insertionSort, List.orderedInsert, List.range, List.range.loop,
        List.filter, List.flatMap, List.foldl]
      norm_num [mkPenItem, Graph.findNode, gPen]
      decide)
    ⟨"C", "c", "Company", 55⟩ (by simp)

/-- A chain `v0 → v1 → … → v11` of eleven unset-stake edges (the
intermediate `v1..v10` are non-Entity nodes) together with a direct
50% edge `v0 → v11`.  At `depth = 11` the eleven-hop path exceeds the
`OWNS*1..10` clamp of the query, so only the direct path is counted. -/
def gChain : Graph :=
  { nodes := [⟨"v0", "root", "E"⟩, ⟨"v11", "leaf", "E"⟩],
    edges := [⟨"v0", "v1", none⟩, ⟨"v1", "v2", none⟩, ⟨"v2", "v3", none⟩,
      ⟨"v3", "v4", none⟩, ⟨"v4", "v5", none⟩, ⟨"v5", "v6", none⟩,
      ⟨"v6", "v7", none⟩, ⟨"v7", "v8", none⟩, ⟨"v8", "v9", none⟩,
      ⟨"v9", "v10", none⟩, ⟨"v10", "v11", none⟩, ⟨"v0", "v11", some 50⟩] }

/-- Counterexample to C1 as stated: at `depth = 11` the reported
penetration of `v11` is `50` (only the direct path is within the hard
10-hop clamp of `OWNS*1..10`), while the sum over every distinct
directed ownership path of length `1..depth` is `3/2`, i.e. `150`. -/
theorem penetration_aggregates_spec_paths_counterexample :
    ∃ res, get_equity_penetration gChain "v0" 11 = some res ∧
      ∃ it ∈ res.items,
        it.penetration ≠ 100 * specPenetration gChain "v0" it.id ((11 : Int).toNat) := by
  refine ⟨⟨⟨"v0", "root", "E"⟩, [⟨"v11", "leaf", "E", 50⟩]⟩, ?_,
    ⟨"v11", "leaf", "E", 50⟩, by simp, ?_⟩
  · simp +decide [gChain, get_equity_penetration, Graph.findNode, aggregate, codeTrails,
      allTrails, trailsFrom, Graph.edgeAt, pathTarget, pathPen, firstDedup, firstDedupAux,
      keyDesc, List.insertionSort, List.orderedInsert, List.range, List.range.loop,
      List.filter, List.flatMap, List.foldl]
    norm_num [mkPenItem, Graph.findNode, gChain]
    decide
  · have hspec : specPenetration gChain "v0" "v11" ((11 : Int).toNat) = 3/2 := by
      simp +decide [gChain, specPenetration, allTrails, trailsFrom, Graph.edgeAt,
        pathTarget, pathPen, List.range, List.range.loop, List.filter, List.flatMap,
        List.foldl]
      norm_num
    show (50 : ℚ) ≠ 100 * specPenetration gChain "v0" "v11" ((11 : Int).toNat)
    rw [hspec]
    norm_num

/-! ## Claim C2 — result ordering -/

/-- The ordering asserted by claim C2: penetration descending, equal
penetrations ordered by ascending node id. -/
def c2ClaimOrder (x y : PenItem) : Prop :=
  y.penetration < x.penetration
    ∨ (y.penetration = x.penetration ∧ strLeB x.id y.id)

/-- Claim C2 (amended): the items are sorted by penetration
descending; the relative order of items with equal penetration is left
unspecified — no node-id tie-break is applied. -/
theorem penetration_items_sorted_desc (g : Graph) (root_id : String)
    (depth : Int) (res : PenResult)
    (h : get_equity_penetration g root_id depth = some res) :
    res.items.Pairwise fun x y => y.penetration ≤ x.penetration := by
  unfold get_equity_penetration at h
  cases hf : g.findNode root_id with
  | none => rw [hf] at h; exact absurd h (by simp)
  | some root =>
    rw [hf] at h
    simp only [Option.some_inj] at h
    subst h
    rw [List.pairwise_map]
    have hs := List.sorted_insertionSort (keyDesc (fun r : String × ℚ => r.2))
      (aggregate g (codeTrails g root_id depth))
    refine hs.imp ?_
    intro a b hab
    show (mkPenItem g b).penetration ≤ (mkPenItem g a).penetration
    simp only [mkPenItem]
    exact mul_le_mul_of_nonneg_right hab (by norm_num)

/-- Witness for (amended) C2 at the spec's worked example. -/
theorem penetration_items_sorted_desc_witness :
    ([⟨"C", "c", "Company", 55⟩, ⟨"B", "b", "Company", 50⟩] : List PenItem).Pairwise
      (fun x y => y.penetration ≤ x.penetration) :=
  penetration_items_sorted_desc gPen "A" 3
    ⟨⟨"A", "a", "Person"⟩, [⟨"C", "c", "Company", 55⟩, ⟨"B", "b", "Company", 50⟩]⟩
    (by
      simp +decide [gPen, get_equity_penetration, Graph.findNode, aggregate, codeTrails,
        allTrails, trailsFrom, Graph.edgeAt, pathTarget, pathPen, firstDedup, firstDedupAux,
        keyDesc, List.insertionSort, List.orderedInsert, List.range, List.range.loop,
        List.filter, List.flatMap, List.foldl]
      norm_num [mkPenItem, Graph.findNode, gPen]
      decide)

/-- Two equal-stake children listed in descending-id order. -/
def gTie : Graph :=
  { nodes := [⟨"R", "r", "E"⟩, ⟨"Z", "z", "E"⟩, ⟨"A", "a", "E"⟩],
    edges := [⟨"R", "Z", some 50⟩, ⟨"R", "A", some 50⟩] }

/-- Counterexample to C2 as stated: the query orders only by
`penetration DESC`; with two children both at 50% the items keep the
encounter order `Z` before `A`, violating the claimed ascending-id
tie-break. -/
theorem penetration_items_sorted_desc_counterexample :
    ∃ res, get_equity_penetration gTie "R" 3 = some res ∧
      ¬ res.items.Pairwise c2ClaimOrder := by
  refine ⟨⟨⟨"R", "r", "E"⟩, [⟨"Z", "z", "E", 50⟩, ⟨"A", "a", "E", 50⟩]⟩, ?_, ?_⟩
  · simp +decide [gTie, get_equity_penetration, Graph.findNode, aggregate, codeTrails,
      allTrails, trailsFrom, Graph.edgeAt, pathTarget, pathPen, firstDedup, firstDedupAux,
      keyDesc, List.insertionSort, List.orderedInsert, List.range, List.range.loop,
      List.filter, List.flatMap, List.foldl]
    norm_num [mkPenItem, Graph.findNode, gTie]
    decide
  · intro hpw
    have h1 := List.rel_of_pairwise_cons hpw (List.mem_cons_self _ _)
    rcases h1 with h | ⟨_, hle⟩
    · exact absurd h (by norm_num)
    · exact absurd hle (by decide)

/-! ## Claim C3 — not-found versus empty result -/

/-- Claim C3: a root id that does not exist yields the "not found"
outcome (the empty dict, modelled `none`), while an existing root with
no outgoing ownership edge — or a `depth` of 0 — yields the distinct
outcome `{root, items: []}`. -/
theorem penetration_notfound_vs_empty (g : Graph) (missing leaf : String)
    (depth : Int) (node : GNode) :
    (g.findNode missing = none → get_equity_penetration g missing depth = none)
    ∧ (g.findNode leaf = some node →
        ((∀ e ∈ g.edges, e.src ≠ leaf) ∨ depth = 0) →
        get_equity_penetration g leaf depth = some ⟨node, []⟩)
    ∧ (∀ r : PenResult, (some r : Option PenResult) ≠ none) := by
  refine ⟨?_, ?_, fun r => by simp⟩
  · intro hm
    unfold get_equity_penetration
    rw [hm]
  · intro hl hdisj
    unfold get_equity_penetration
    rw [hl]
    have htrails : codeTrails g leaf depth = [] := by
      unfold codeTrails allTrails
      rcases hdisj with hno | hzero
      · rw [trailsFrom_eq_nil_of_no_edges hno]
        rfl
      · subst hzero
        rfl
    rw [htrails]
    rfl

/-- Witness for C3 at the spec's worked example: a nonexistent id is
NotFound while the leaf `C` returns a root record and an empty items
list, and the two outcomes differ. -/
theorem penetration_notfound_vs_empty_witness :
    get_equity_penetration gPen "nonexistent-id" 3 = none
      ∧ get_equity_penetration gPen "C" 3 = some ⟨⟨"C", "c", "Company"⟩, []⟩
      ∧ get_equity_penetration gPen "A" 0 = some ⟨⟨"A", "a", "Person"⟩, []⟩
      ∧ (some (⟨⟨"C", "c", "Company"⟩, []⟩ : PenResult) ≠ none) := by
  have h := penetration_notfound_vs_empty gPen "nonexistent-id" "C" 3 ⟨"C", "c", "Company"⟩
  have h0 := penetration_notfound_vs_empty gPen "nonexistent-id" "A" 0 ⟨"A", "a", "Person"⟩
  exact ⟨h.1 (by decide), h.2.1 (by decide) (Or.inl (by decide)),
    h0.2.1 (by decide) (Or.inr rfl), h.2.2 _⟩

/-! ## Claim C4 — the with-paths variant refines the basic form -/

lemma map_orderedInsert {α β : Type} (f : α → β) (r : α → α → Prop)
    (r' : β → β → Prop) [DecidableRel r] [DecidableRel r']
    (hrr : ∀ a b, r a b ↔ r' (f a) (f b)) (a : α) (l : List α) :
    (l.orderedInsert r a).map f = (l.map f).orderedInsert r' (f a) := by
  induction l with
  | nil => rfl
  | cons b bs ih =>
    simp only [List.orderedInsert, List.map_cons]
    by_cases h : r a b
    · rw [if_pos h, if_pos ((hrr a b).mp h)]
      simp
    · rw [if_neg h, if_neg (fun h' => h ((hrr a b).mpr h'))]
      simp only [List.map_cons, ih]

lemma map_insertionSort {α β : Type} (f : α → β) (r : α → α → Prop)
    (r' : β → β → Prop) [DecidableRel r] [DecidableRel r']
    (hrr : ∀ a b, r a b ↔ r' (f a) (f b)) (l : List α) :
    (l.insertionSort r).map f = (l.map f).insertionSort r' := by
  induction l with
  | nil => rfl
  | cons b bs ih =>
    simp only [List.insertionSort, map_orderedInsert f r r' hrr, ih]

/-- The basic aggregation is the projection of the with-paths
aggregation (the two Cypher queries group and sum identically). -/
lemma aggregate_eq_proj (g : Graph) (ps : List (List Nat)) :
    aggregate g ps = (aggregateWith g ps).map fun r => (r.1, r.2.1) := by
  unfold aggregate aggregateWith
  rw [List.map_map]
  rfl

lemma aggregateWith_mem {g : Graph} {ps : List (List Nat)}
    {row : String × ℚ × List (List Nat)} (h : row ∈ aggregateWith g ps) :
    row.2.2 = ps.filter fun p => pathTarget g p == row.1 := by
  unfold aggregateWith at h
  obtain ⟨t, _, rfl⟩ := List.mem_map.mp h
  rfl

/-- Forgetting the attached paths of a with-paths item. -/
def toPenItem (it : PathItem) : PenItem :=
  ⟨it.id, it.name, it.ty, it.penetration⟩

/-- The number of discovered contributing paths of a target node. -/
def discoveredCount (g : Graph) (root : String) (depth : Int) (t : String) : Nat :=
  ((codeTrails g root depth).filter fun p => pathTarget g p == t).length

/-- Claim C4: `penetrate_with_paths(root_id, depth, max_paths)` reports,
for every target node, exactly the aggregate penetration (and id, name,
type) that `penetrate(root_id, depth)` reports; each item carries at
most `max_paths` attached paths, sorted by individual path penetration
descending; and a `max_paths` at least the number of discovered paths
yields all of them. -/
theorem penetration_with_paths_refines (g : Graph) (root_id : String)
    (depth : Int) (mp : Nat) :
    (∀ res2, get_equity_penetration_with_paths g root_id depth (mp : Int) = some res2 →
      (∃ res1, get_equity_penetration g root_id depth = some res1 ∧
        res1.root = res2.root ∧ res1.items = res2.items.map toPenItem))
    ∧ (∀ res2, get_equity_penetration_with_paths g root_id depth (mp : Int) = some res2 →
        ∀ it ∈ res2.items,
          it.paths.length ≤ mp
          ∧ it.paths.Pairwise (fun x y => y.path_penetration ≤ x.path_penetration)
          ∧ (discoveredCount g root_id depth it.id ≤ mp →
              it.paths.length = discoveredCount g root_id depth it.id)) := by
  have hmp : ((max 0 (mp : Int)).toNat) = mp := by
    rw [max_eq_right (by positivity)]
    exact Int.toNat_natCast mp
  constructor
  · intro res2 h2
    unfold get_equity_penetration_with_paths at h2
    cases hf : g.findNode root_id with
    | none => rw [hf] at h2; exact absurd h2 (by simp)
    | some root =>
      rw [hf] at h2
      simp only [Option.some_inj] at h2
      subst h2
      refine ⟨_, by unfold get_equity_penetration; rw [hf], rfl, ?_⟩
      show (List.insertionSort _ (aggregate g (codeTrails g root_id depth))).map
          (mkPenItem g) = _
      have hmap := map_insertionSort
        (fun r : String × ℚ × List (List Nat) => (r.1, r.2.1))
        (keyDesc (fun r : String × ℚ × List (List Nat) => r.2.1))
        (keyDesc (fun r : String × ℚ => r.2)) (fun _ _ => Iff.rfl)
        (aggregateWith g (codeTrails g root_id depth))
      rw [aggregate_eq_proj, ← hmap, List.map_map, List.map_map]
      rfl
  · intro res2 h2 it hit
    unfold get_equity_penetration_with_paths at h2
    cases hf : g.findNode root_id with
    | none => rw [hf] at h2; exact absurd h2 (by simp)
    | some root =>
      rw [hf] at h2
      simp only [Option.some_inj] at h2
      subst h2
      obtain ⟨row, hrow, rfl⟩ := List.mem_map.mp hit
      have hrow' : row ∈ aggregateWith g (codeTrails g root_id depth) :=
        (List.mem_insertionSort _).mp hrow
      have hpaths := aggregateWith_mem hrow'
      refine ⟨?_, ?_, ?_⟩
      · show ((((row.2.2.map (mkRawRecord g root_id)).insertionSort
          (keyDesc PathRecord.path_penetration)).take _).map _).length ≤ mp
        rw [List.length_map]
        calc _ ≤ (max 0 (mp : Int)).toNat := List.length_take_le _ _
          _ = mp := hmp
      · show (((((row.2.2.map (mkRawRecord g root_id)).insertionSort
          (keyDesc PathRecord.path_penetration)).take _).map _) :
            List PathRecord).Pairwise _
        rw [List.pairwise_map]
        have hs := List.sorted_insertionSort (keyDesc PathRecord.path_penetration)
          (row.2.2.map (mkRawRecord g root_id))
        have hts := List.Pairwise.sublist (List.take_sublist ((max 0 (mp : Int)).toNat) _) hs
        refine hts.imp ?_
        intro a b hab
        show b.path_penetration * 100 ≤ a.path_penetration * 100
        exact mul_le_mul_of_nonneg_right hab (by norm_num)
      · intro hcount
        show ((((row.2.2.map (mkRawRecord g root_id)).insertionSort
          (keyDesc PathRecord.path_penetration)).take _).map _).length
            = discoveredCount g root_id depth row.1
        have hlen : ((row.2.2.map (mkRawRecord g root_id)).insertionSort
            (keyDesc PathRecord.path_penetration)).length
              = discoveredCount g root_id depth row.1 := by
          rw [List.length_insertionSort, List.length_map, hpaths]
          rfl
        rw [List.length_map, List.take_of_length_le (by rw [hlen, hmp]; exact hcount), hlen]

/-- The with-paths result of the worked example at depth 3 with
`max_paths = 5`. -/
def pathsResExample : PathsResult :=
  ⟨⟨"A", "a", "Person"⟩,
    [⟨"C", "c", "Company", 55,
      [⟨[⟨"A", "a", "Person"⟩, ⟨"C", "c", "Company"⟩],
        [⟨"A", "C", some 40⟩], 40⟩,
       ⟨[⟨"A", "a", "Person"⟩, ⟨"B", "b", "Company"⟩, ⟨"C", "c", "Company"⟩],
        [⟨"A", "B", some 50⟩, ⟨"B", "C", some 30⟩], 15⟩]⟩,
     ⟨"B", "b", "Company", 50,
      [⟨[⟨"A", "a", "Person"⟩, ⟨"B", "b", "Company"⟩],
        [⟨"A", "B", some 50⟩], 50⟩]⟩]⟩

/-- Witness for C4 at the spec's worked example with `max_paths = 5`:
the with-paths call reports the same aggregates as the basic call, and
`C` carries both its discovered paths (40 above 15), within the bound. -/
theorem penetration_with_paths_refines_witness :
    (∃ res1, get_equity_penetration gPen "A" 3 = some res1 ∧
      res1.root = pathsResExample.root ∧
      res1.items = pathsResExample.items.map toPenItem)
    ∧ ((pathsResExample.items.get ⟨0, by simp [pathsResExample]⟩).paths.length ≤ 5
      ∧ (pathsResExample.items.get ⟨0, by simp [pathsResExample]⟩).paths.Pairwise
          (fun x y => y.path_penetration ≤ x.path_penetration)
      ∧ (discoveredCount gPen "A" 3 (pathsResExample.items.get
            ⟨0, by simp [pathsResExample]⟩).id ≤ 5 →
          (pathsResExample.items.get ⟨0, by simp [pathsResExample]⟩).paths.length
            = discoveredCount gPen "A" 3 (pathsResExample.items.get
                ⟨0, by simp [pathsResExample]⟩).id)) := by
  have h := penetration_with_paths_refines gPen "A" 3 5
  have h2 : get_equity_penetration_with_paths gPen "A" 3 ((5 : Nat) : Int)
      = some pathsResExample := by
    simp +decide [gPen, pathsResExample, get_equity_penetration_with_paths, Graph.findNode,
      aggregateWith, codeTrails, allTrails, trailsFrom, Graph.edgeAt, pathTarget, pathPen,
      firstDedup, firstDedupAux, keyDesc, List.insertionSort, List.orderedInsert,
      List.range, List.range.loop, List.filter, List.flatMap, List.foldl, mkPathItem,
      mkRawRecord, pathNodeList, pathRelList]
    norm_num [mkPathItem, mkRawRecord, pathNodeList, pathRelList, Graph.findNode, gPen,
      keyDesc, List.insertionSort, List.orderedInsert, pathPen, Graph.edgeAt, List.foldl]
    decide
  exact ⟨h.1 pathsResExample h2,
    h.2 pathsResExample h2 (pathsResExample.items.get ⟨0, by simp [pathsResExample]⟩)
      (List.get_mem _ 0 (by simp [pathsResExample]))⟩

/-! ## Hybrid Entity Resolution Engine (`app/services/graph_rag.py`)

`resolve_graphrag` is modelled as a function of its external
collaborators: the fuzzy search over the graph (`search`, the Graph
Access Layer behind `search_entities_fuzzy`), the embedding provider
(`embed`, behind `get_llm_client().embed`; it may fail, modelled as
`Except Unit`), the vector-similarity function (`sim`, standing for
`_cosine`, whose real square roots have no exact rational counterpart —
every claim below is proved for an arbitrary similarity function, hence
in particular for cosine), and the subgraph fetch (`fetchLayers`,
behind `get_layers`; `none` models an exception, recorded as a null
subgraph). -/

/-- The `basic_info` structured sub-document fields read by the
resolver. -/
structure BasicInfo where
  birth_date : Option String := none
  residential_address : Option String := none
deriving DecidableEq, Repr

/-- Textual rendering standing for Python's `str(dict)` of a
`basic_info` document; only its presence in the evidence text matters
to the engine, never its exact formatting. -/
def BasicInfo.render (bi : BasicInfo) : String :=
  String.intercalate ", " [bi.birth_date.getD "", bi.residential_address.getD ""]

/-- A candidate row as returned by the fuzzy search: node fields, the
integer tier `score` (0..4), and the parsed extended-profile
sub-documents the resolver reads.  `id_info` is the list of values of
the `id_info` dict (insertion order); `geo_profile` is its
`countries_recent_6m` list when the dict is present. -/
structure CandidateRow where
  id : String
  name : String := ""
  ty : String := ""
  description : String := ""
  score : Option ℚ := none
  basic_info : Option BasicInfo := none
  id_info : Option (List String) := none
  geo_profile : Option (List String) := none
deriving DecidableEq, Repr

/-- Textual rendering standing for Python's `str(dict)` of the
`id_info` document (formatting immaterial to the claims). -/
def renderStrList (l : List String) : String := String.intercalate ", " l

/-- Model of `_build_node_text`: join the truthy searchable fields with
a bar separator. -/
def buildNodeText (c : CandidateRow) : String :=
  String.intercalate " | "
    ((if c.name ≠ "" then [c.name] else [])
      ++ (if c.ty ≠ "" then [c.ty] else [])
      ++ (if c.description ≠ "" then [c.description] else [])
      ++ (if c.id ≠ "" then [c.id] else [])
      ++ (match c.id_info with
          | some vs => if vs ≠ [] then [renderStrList vs] else []
          | none => [])
      ++ (match c.basic_info with
          | some bi => [bi.render]
          | none => []))

/-- An exact birth-date match in the candidate's structured profile
(`basic_info.birth_date`). -/
def exactDobMatch (bd : String) (c : CandidateRow) : Bool :=
  match c.basic_info with
  | some bi => (bi.birth_date.getD "") == bd
  | none => false

/-- A partial birth-date match inside one of the candidate's
identifier-blob (`id_info`) values. -/
def partialDobMatch (bd : String) (c : CandidateRow) : Bool :=
  match c.id_info with
  | some vs => vs.any fun v => strContains v bd
  | none => false

/-- The DOB bonus and its matched-field tags: `+0.3` for an exact
`basic_info.birth_date` match, else `+0.15` for a partial match inside
an `id_info` value, never both; nothing when no `birth_date` was
supplied (Python truthiness: an empty string counts as absent). -/
def dobBonusPair (birth_date : Option String) (c : CandidateRow) : ℚ × List String :=
  match birth_date with
  | none => (0, [])
  | some bd =>
    if bd = "" then (0, [])
    else if exactDobMatch bd c then (3/10, ["birth_date"])
    else if partialDobMatch bd c then (3/20, ["id_info_match"])
    else (0, [])

/-- Insert-or-replace in an association list (Python dict assignment:
an existing key keeps its position, a new key is appended). -/
def insertAssoc (l : List (String × String)) (k v : String) : List (String × String) :=
  match l with
  | [] => [(k, v)]
  | (k', v') :: rest =>
    if k' = k then (k', v) :: rest else (k', v') :: insertAssoc rest k v

/-- The lowercased residential address of a candidate. -/
def lowerAddress (c : CandidateRow) : String :=
  match c.basic_info with
  | some bi => lowerStr (bi.residential_address.getD "")
  | none => ""

/-- The lowercased recent-geography country strings of a candidate. -/
def lowerGeo (c : CandidateRow) : List String :=
  match c.geo_profile with
  | some l => l.map lowerStr
  | none => []

/-- One iteration of the Python keyword loop: skip empty keywords,
record `basic_info` when the keyword occurs in the address, else
`geo_profile` when it occurs in some country string. -/
def addrMatchStep (ra : String) (geo : List String)
    (acc : List (String × String)) (kw : String) : List (String × String) :=
  if kw = "" then acc
  else if strContains ra kw then insertAssoc acc kw "basic_info"
  else match geo.find? (fun ct => strContains ct kw) with
    | some _ => insertAssoc acc kw "geo_profile"
    | none => acc

/-- The `matched_addr` dict: keyword → source, over the supplied
keywords in order. -/
def addrMatches (kws : List String) (c : CandidateRow) : List (String × String) :=
  kws.foldl (addrMatchStep (lowerAddress c) (lowerGeo c)) []

/-- The address bonus: `0.1` per matched (distinct) keyword, capped at
`0.3`; `0` when nothing matched. -/
def addressBonus (kws : List String) (c : CandidateRow) : ℚ :=
  let m := addrMatches kws c
  if m ≠ [] then
    (if (1/10 : ℚ) * m.length > 3/10 then 3/10 else (1/10 : ℚ) * m.length)
  else 0

/-- The address entries of `matched_fields`: matched keywords in
ascending string order, each tagged with its source. -/
def addrMatchedFields (kws : List String) (c : CandidateRow) : List String :=
  let m := addrMatches kws c
  if m = [] then []
  else ((m.map Prod.fst).insertionSort fun a b => strLeB a b = true).map
    fun k => "address:" ++ k ++ " (" ++ ((m.lookup k).getD "unknown") ++ ")"

instance : DecidableRel (fun a b => strLeB a b = true) := fun a b =>
  inferInstanceAs (Decidable (strLeB a b = true))

/-- The clamp of the normalized score to `[0,1]` (the two sequential
`if` statements of the source). -/
def clamp01 (x : ℚ) : ℚ := if x < 0 then 0 else if x > 1 then 1 else x

/-- A scored resolution candidate (the per-candidate result dict,
`_raw` included). -/
structure ResolveCandidate where
  node_id : String
  labels : List String
  name : String
  score : ℚ
  fuzzy_score : ℚ
  semantic_score : ℚ
  composite_score : ℚ
  normalized_score : ℚ
  matched_fields : List String
  evidence : String
  raw : CandidateRow
deriving DecidableEq, Repr

/-- The scoring of one candidate (the body of the main loop of
`resolve_graphrag`): fuzzy tier normalised to `[0,1]`, optional
semantic score mapped from `[-1,1]` to `[0,1]`, DOB and address
bonuses, the semantic/lexical composite blend, and the `1.6`-max
normalisation with clamping. -/
def scoreOne (birth_date : Option String) (kws : List String)
    (semSims : Option (List ℚ)) (idx : Nat) (c : CandidateRow) : ResolveCandidate :=
  let fuzzy : ℚ := min 1 ((c.score.getD 0) / 4)
  let sem : ℚ := match semSims with
    | some sims => if idx < sims.length then ((sims.getD idx 0) + 1) / 2 else 0
    | none => 0
  let dob := dobBonusPair birth_date c
  let abonus := addressBonus kws c
  let final : ℚ := match semSims with
    | some _ => (3/5) * sem + (2/5) * fuzzy + dob.1 + abonus
    | none => 1 * fuzzy + dob.1 + abonus
  { node_id := c.id
    labels := if lowerStr c.ty = "person" then ["Person"] else [c.ty]
    name := c.name
    score := min 1 final
    fuzzy_score := fuzzy
    semantic_score := sem
    composite_score := final
    normalized_score := clamp01 (final / (8/5))
    matched_fields := dob.2 ++ addrMatchedFields kws c
    evidence := buildNodeText c
    raw := c }

/-- The ranking order: `normalized_score` descending, ties broken by
`composite_score` descending (Python `sorted` on the key tuple with
`reverse=True`). -/
def rankRel (a b : ResolveCandidate) : Prop :=
  b.normalized_score < a.normalized_score
    ∨ (b.normalized_score = a.normalized_score
        ∧ b.composite_score ≤ a.composite_score)

instance : DecidableRel rankRel := fun a b =>
  inferInstanceAs (Decidable (b.normalized_score < a.normalized_score
    ∨ (b.normalized_score = a.normalized_score
        ∧ b.composite_score ≤ a.composite_score)))

instance : IsTotal ResolveCandidate rankRel where
  total a b := by
    unfold rankRel
    rcases lt_trichotomy a.normalized_score b.normalized_score with h | h | h
    · exact Or.inr (Or.inl h)
    · rcases le_total a.composite_score b.composite_score with hc | hc
      · exact Or.inr (Or.inr ⟨h, hc⟩)
      · exact Or.inl (Or.inr ⟨h.symm, hc⟩)
    · exact Or.inl (Or.inl h)

instance : IsTrans ResolveCandidate rankRel where
  trans a b c hab hbc := by
    unfold rankRel at hab hbc ⊢
    rcases hab with h1 | ⟨h1, h1'⟩ <;> rcases hbc with h2 | ⟨h2, h2'⟩
    · exact Or.inl (h2.trans h1)
    · exact Or.inl (lt_of_le_of_lt (le_of_eq h2) h1)
    · exact Or.inl (lt_of_lt_of_le h2 (le_of_eq h1))
    · exact Or.inr ⟨h2.trans h1, h2'.trans h1'⟩

/-- The keyword list actually matched against: stringified, truthy,
stripped and lowercased entries of `extra.address_keywords`. -/
def normalizeKws (extra : Option (List String)) : List String :=
  ((extra.getD []).filter fun x => x ≠ "").map fun s => lowerStr (trimStr s)

/-- The query echo and output record of `resolve_graphrag`.
`subgraphs = none` models the early return (no `subgraphs` key) when
there is no candidate. -/
structure ResolveOutput where
  query_name : Option String
  query_birth_date : Option String
  query_kws : Option (List String)
  query_use_semantic : Bool
  candidates : List ResolveCandidate
  subgraphs : Option (List (String × Option (List String)))
deriving DecidableEq, Repr

/-- The fuzzy candidate generation step: name-only query text, empty
query short-circuits, candidate cap `max(10, 3*top_k)`. -/
def resolveCandidatesOf (search : String → Nat → List CandidateRow)
    (name : Option String) (top_k : Nat) : List CandidateRow :=
  let q := trimStr (name.getD "")
  if q ≠ "" then search q (max 10 (top_k * 3)) else []

/-- The texts handed to the embedding provider: the query text followed
by one constructed descriptive text per candidate. -/
def resolveTexts (candidates : List CandidateRow) (q_text : String)
    (name : Option String) : List String :=
  ((pyOrS (some q_text) (some (name.getD ""))).getD "") :: candidates.map buildNodeText

/-- The semantic-similarity outcome of one embedding call: `none` when
the call raised, returned an empty result, or returned a result of
unexpected length; otherwise one similarity per candidate against the
query vector. -/
def resolveSemSims (sim : List ℚ → List ℚ → ℚ)
    (embedRes : Except Unit (List (List ℚ))) (texts : List String) :
    Option (List ℚ) :=
  match embedRes with
  | .error _ => none
  | .ok embs =>
    if embs ≠ [] ∧ embs.length = texts.length then
      some ((embs.drop 1).map (sim (embs.headD [])))
    else none

/-- The semantic-similarity state of a full resolve call (`sem_sims` in
the source): `none` whenever semantic scoring is off, there is no
candidate, or the embedding call failed. -/
def resolveSemSimsOf (search : String → Nat → List CandidateRow)
    (embed : List String → Except Unit (List (List ℚ)))
    (sim : List ℚ → List ℚ → ℚ) (name : Option String)
    (use_semantic : Bool) (top_k : Nat) : Option (List ℚ) :=
  let candidates := resolveCandidatesOf search name top_k
  if candidates.isEmpty then none
  else if use_semantic then
    resolveSemSims sim (embed (resolveTexts candidates (trimStr (name.getD "")) name))
      (resolveTexts candidates (trimStr (name.getD "")) name)
  else none

/-- The scoring/ranking/attachment tail of `resolve_graphrag` once the
candidates and the `sem_sims` state are fixed. -/
def resolveBody (name birth_date : Option String) (extra : Option (List String))
    (use_semantic : Bool) (fetchLayers : String → Option (List String))
    (candidates : List CandidateRow) (semSims : Option (List ℚ))
    (top_k : Nat) : ResolveOutput :=
  let kws := normalizeKws extra
  let results := candidates.enum.map fun ic => scoreOne birth_date kws semSims ic.1 ic.2
  let topk := (results.insertionSort rankRel).take top_k
  { query_name := name, query_birth_date := birth_date, query_kws := extra,
    query_use_semantic := use_semantic,
    candidates := topk,
    subgraphs := some ((topk.take 2).map fun r => (r.node_id, fetchLayers r.node_id)) }

/-- Model of `resolve_graphrag` (`app/services/graph_rag.py`). -/
def resolve_graphrag (search : String → Nat → List CandidateRow)
    (embed : List String → Except Unit (List (List ℚ)))
    (sim : List ℚ → List ℚ → ℚ) (fetchLayers : String → Option (List String))
    (name birth_date : Option String) (extra : Option (List String))
    (use_semantic : Bool) (top_k : Nat) : ResolveOutput :=
  let candidates := resolveCandidatesOf search name top_k
  if candidates.isEmpty then
    { query_name := name, query_birth_date := birth_date, query_kws := extra,
      query_use_semantic := use_semantic, candidates := [], subgraphs := none }
  else
    resolveBody name birth_date extra use_semantic fetchLayers candidates
      (resolveSemSimsOf search embed sim name use_semantic top_k) top_k

/-! ## Resolution: supporting lemmas -/

lemma scoreOne_raw (bd : Option String) (kws : List String)
    (semSims : Option (List ℚ)) (i : Nat) (c : CandidateRow) :
    (scoreOne bd kws semSims i c).raw = c := by
  unfold scoreOne
  cases semSims <;> rfl

lemma scoreOne_composite (bd : Option String) (kws : List String)
    (semSims : Option (List ℚ)) (i : Nat) (c : CandidateRow) :
    (scoreOne bd kws semSims i c).composite_score
      = (match semSims with
        | some _ => (3/5) * (scoreOne bd kws semSims i c).semantic_score
            + (2/5) * (scoreOne bd kws semSims i c).fuzzy_score
        | none => 1 * (scoreOne bd kws semSims i c).fuzzy_score)
        + (dobBonusPair bd c).1 + addressBonus kws c := by
  unfold scoreOne
  cases semSims <;> simp

lemma scoreOne_normalized (bd : Option String) (kws : List String)
    (semSims : Option (List ℚ)) (i : Nat) (c : CandidateRow) :
    (scoreOne bd kws semSims i c).normalized_score
      = clamp01 ((scoreOne bd kws semSims i c).composite_score / (8/5)) := by
  unfold scoreOne
  cases semSims <;> rfl

/-- Every candidate of a resolve result is the scoring of one fuzzy
candidate against the call's `sem_sims` state. -/
lemma mem_resolve_candidates (search : String → Nat → List CandidateRow)
    (embed : List String → Except Unit (List (List ℚ)))
    (sim : List ℚ → List ℚ → ℚ) (fl : String → Option (List String))
    (name bd : Option String) (extra : Option (List String))
    (us : Bool) (tk : Nat) :
    ∀ r ∈ (resolve_graphrag search embed sim fl name bd extra us tk).candidates,
      ∃ i c, r = scoreOne bd (normalizeKws extra)
        (resolveSemSimsOf search embed sim name us tk) i c := by
  intro r hr
  unfold resolve_graphrag at hr
  by_cases hempty : (resolveCandidatesOf search name tk).isEmpty
  · simp only [hempty, if_true] at hr
    exact absurd hr (List.not_mem_nil r)
  · simp only [hempty, if_false] at hr
    unfold resolveBody at hr
    simp only at hr
    have hr' := (List.mem_insertionSort _).mp (List.mem_of_mem_take hr)
    obtain ⟨ic, _, rfl⟩ := List.mem_map.mp hr'
    exact ⟨ic.1, ic.2, rfl⟩

lemma resolve_candidates_eq (search : String → Nat → List CandidateRow)
    (embed : List String → Except Unit (List (List ℚ)))
    (sim : List ℚ → List ℚ → ℚ) (fl : String → Option (List String))
    (name bd : Option String) (extra : Option (List String))
    (us : Bool) (tk : Nat) (h : ¬ (resolveCandidatesOf search name tk).isEmpty) :
    (resolve_graphrag search embed sim fl name bd extra us tk).candidates
      = ((((resolveCandidatesOf search name tk).enum.map fun ic =>
          scoreOne bd (normalizeKws extra)
            (resolveSemSimsOf search embed sim name us tk) ic.1 ic.2).insertionSort
              rankRel).take tk) := by
  unfold resolve_graphrag
  simp only [h, if_false]
  rfl

/-! ## Claim C5 — composite score, normalisation and ranking -/

/-- Claim C5: for every resolve call, each returned candidate's
composite equals `0.6*semantic + 0.4*fuzzy + bonuses` when semantic
scoring was used and `1.0*fuzzy + bonuses` otherwise; its normalized
score is the composite divided by 1.6, clamped to `[0,1]`; and the
returned list is sorted by normalized score descending with composite
as descending tie-break, truncated to `top_k`. -/
theorem resolve_composite_normalized_ranking
    (search : String → Nat → List CandidateRow)
    (embed : List String → Except Unit (List (List ℚ)))
    (sim : List ℚ → List ℚ → ℚ) (fl : String → Option (List String))
    (name bd : Option String) (extra : Option (List String))
    (us : Bool) (tk : Nat) :
    (∀ r ∈ (resolve_graphrag search embed sim fl name bd extra us tk).candidates,
      ((resolveSemSimsOf search embed sim name us tk).isSome = true →
        r.composite_score = (3/5) * r.semantic_score + (2/5) * r.fuzzy_score
          + (dobBonusPair bd r.raw).1 + addressBonus (normalizeKws extra) r.raw)
      ∧ ((resolveSemSimsOf search embed sim name us tk).isSome = false →
        r.composite_score = 1 * r.fuzzy_score
          + (dobBonusPair bd r.raw).1 + addressBonus (normalizeKws extra) r.raw)
      ∧ r.normalized_score = clamp01 (r.composite_score / (8/5)))
    ∧ (resolve_graphrag search embed sim fl name bd extra us tk).candidates.Pairwise rankRel
    ∧ (resolve_graphrag search embed sim fl name bd extra us tk).candidates.length
        = min tk (resolveCandidatesOf search name tk).length := by
  refine ⟨?_, ?_, ?_⟩
  · intro r hr
    obtain ⟨i, c, rfl⟩ := mem_resolve_candidates search embed sim fl name bd extra us tk r hr
    rw [scoreOne_raw]
    refine ⟨?_, ?_, scoreOne_normalized _ _ _ _ _⟩
    · intro hsome
      obtain ⟨sims, hs⟩ := Option.isSome_iff_exists.mp hsome
      rw [scoreOne_composite]
      rw [hs]
    · intro hnone
      have hn : resolveSemSimsOf search embed sim name us tk = none :=
        Option.not_isSome_iff_eq_none.mp (by rw [hnone]; exact Bool.false_ne_true)
      rw [scoreOne_composite, hn]
  · by_cases hempty : (resolveCandidatesOf search name tk).isEmpty
    · unfold resolve_graphrag
      simp only [hempty, if_true]
      exact List.Pairwise.nil
    · rw [resolve_candidates_eq search embed sim fl name bd extra us tk hempty]
      exact List.Pairwise.sublist (List.take_sublist _ _)
        (List.sorted_insertionSort rankRel _)
  · by_cases hempty : (resolveCandidatesOf search name tk).isEmpty
    · unfold resolve_graphrag
      simp only [hempty, if_true]
      rw [List.isEmpty_iff.mp hempty]
      simp
    · rw [resolve_candidates_eq search embed sim fl name bd extra us tk hempty]
      rw [List.length_take, List.length_insertionSort, List.length_map,
        List.enum_length]

/-- The single-candidate search used by the resolution witnesses. -/
def cAcme : CandidateRow :=
  { id := "e1", name := "acme", ty := "Company", description := "a firm", score := some 4 }

/-- Witness for C5: a one-candidate call with an unavailable embedding
provider; the returned candidate satisfies the lexical composite
formula and the clamped normalisation, and the list is sorted and
within `top_k`. -/
theorem resolve_composite_normalized_ranking_witness :
    ((scoreOne none [] none 0 cAcme).composite_score
        = 1 * (scoreOne none [] none 0 cAcme).fuzzy_score
          + (dobBonusPair none (scoreOne none [] none 0 cAcme).raw).1
          + addressBonus [] (scoreOne none [] none 0 cAcme).raw)
      ∧ (scoreOne none [] none 0 cAcme).normalized_score
          = clamp01 ((scoreOne none [] none 0 cAcme).composite_score / (8/5))
      ∧ (resolve_graphrag (fun _ _ => [cAcme]) (fun _ => .error ()) (fun _ _ => 0)
          (fun _ => none) (some "acme") none none true 5).candidates.length
          = min 5 (resolveCandidatesOf (fun _ _ => [cAcme]) (some "acme") 5).length := by
  have h := resolve_composite_normalized_ranking (fun _ _ => [cAcme])
    (fun _ => .error ()) (fun _ _ => 0) (fun _ => none) (some "acme") none none true 5
  have hsem : resolveSemSimsOf (fun _ _ => [cAcme]) (fun _ => .error ())
      (fun _ _ => 0) (some "acme") true 5 = none := by
    unfold resolveSemSimsOf resolveCandidatesOf resolveSemSims
    simp +decide [trimStr]
  have hmem : scoreOne none [] none 0 cAcme
      ∈ (resolve_graphrag (fun _ _ => [cAcme]) (fun _ => .error ()) (fun _ _ => 0)
          (fun _ => none) (some "acme") none none true 5).candidates := by
    rw [resolve_candidates_eq _ _ _ _ _ _ _ _ _ (by simp +decide [resolveCandidatesOf, trimStr]),
      hsem]
    simp +decide [resolveCandidatesOf, trimStr, normalizeKws, List.insertionSort,
      List.orderedInsert, List.enum, List.enumFrom]
  have h1 := h.1 _ hmem
  have h2 := h1.2.1 (by rw [hsem]; rfl)
  have h3 := h1.2.2
  rw [scoreOne_raw] at h2
  exact ⟨h2, h3, h.2.2⟩

/-! ## Claim C6 — bonus signals -/

lemma mem_keys_insertAssoc (k v kw : String) (l : List (String × String)) :
    kw ∈ (insertAssoc l k v).map Prod.fst ↔ kw ∈ l.map Prod.fst ∨ kw = k := by
  induction l with
  | nil => simp [insertAssoc]
  | cons p rest ih =>
    by_cases hp : p.1 = k
    · unfold insertAssoc
      rw [if_pos hp]
      subst hp
      simp
      tauto
    · unfold insertAssoc
      rw [if_neg hp]
      simp [ih]
      tauto

lemma nodup_keys_insertAssoc (k v : String) (l : List (String × String))
    (h : (l.map Prod.fst).Nodup) : ((insertAssoc l k v).map Prod.fst).Nodup := by
  induction l with
  | nil => simp [insertAssoc]
  | cons p rest ih =>
    rw [List.map_cons, List.nodup_cons] at h
    by_cases hp : p.1 = k
    · unfold insertAssoc
      rw [if_pos hp]
      simp only [List.map_cons, List.nodup_cons]
      exact ⟨h.1, h.2⟩
    · unfold insertAssoc
      rw [if_neg hp]
      simp only [List.map_cons, List.nodup_cons]
      refine ⟨?_, ih h.2⟩
      rw [mem_keys_insertAssoc]
      rintro (hcase | hcase)
      · exact h.1 hcase
      · exact hp hcase

lemma keys_addrMatchStep (ra : String) (geo : List String)
    (acc : List (String × String)) (k kw : String) :
    (kw ∈ (addrMatchStep ra geo acc k).map Prod.fst ↔
      kw ∈ acc.map Prod.fst ∨ (kw = k ∧ k ≠ "" ∧ (strContains ra k = true
        ∨ ∃ ct ∈ geo, strContains ct k = true))) := by
  unfold addrMatchStep
  by_cases h0 : k = ""
  · rw [if_pos h0]
    subst h0
    tauto
  · rw [if_neg h0]
    by_cases hra : strContains ra k
    · rw [if_pos hra, mem_keys_insertAssoc]
      tauto
    · rw [if_neg hra]
      cases hfind : geo.find? (fun ct => strContains ct k) with
      | none =>
        have hall : ∀ ct ∈ geo, ¬ strContains ct k = true := by
          intro ct hct
          exact by simpa using List.find?_eq_none.mp hfind ct hct
        simp only [Bool.not_eq_true] at hra
        constructor
        · tauto
        · rintro (hacc | ⟨rfl, _, hor⟩)
          · exact hacc
          · rcases hor with hr | ⟨ct, hct, hc⟩
            · rw [hra] at hr; exact absurd hr (by simp)
            · exact absurd hc (hall ct hct)
      | some ct =>
        rw [mem_keys_insertAssoc]
        have hct := List.find?_some hfind
        have hmem := List.mem_of_find?_eq_some hfind
        constructor
        · rintro (hacc | rfl)
          · exact Or.inl hacc
          · exact Or.inr ⟨rfl, h0, Or.inr ⟨ct, hmem, hct⟩⟩
        · tauto

lemma nodup_keys_addrMatchStep (ra : String) (geo : List String)
    (acc : List (String × String)) (k : String)
    (h : (acc.map Prod.fst).Nodup) :
    ((addrMatchStep ra geo acc k).map Prod.fst).Nodup := by
  unfold addrMatchStep
  by_cases h0 : k = ""
  · rw [if_pos h0]; exact h
  · rw [if_neg h0]
    by_cases hra : strContains ra k
    · rw [if_pos hra]; exact nodup_keys_insertAssoc _ _ _ h
    · rw [if_neg hra]
      cases hfind : geo.find? (fun ct => strContains ct k) with
      | none => exact h
      | some ct => exact nodup_keys_insertAssoc _ _ _ h

lemma keys_foldl_addrMatchStep (ra : String) (geo : List String) :
    ∀ (kws : List String) (acc : List (String × String)) (kw : String),
      kw ∈ ((kws.foldl (addrMatchStep ra geo) acc).map Prod.fst) ↔
        kw ∈ acc.map Prod.fst ∨ (kw ∈ kws ∧ kw ≠ "" ∧ (strContains ra kw = true
          ∨ ∃ ct ∈ geo, strContains ct kw = true)) := by
  intro kws
  induction kws with
  | nil => intro acc kw; simp
  | cons k rest ih =>
    intro acc kw
    rw [List.foldl_cons, ih, keys_addrMatchStep]
    constructor
    · rintro ((hacc | ⟨rfl, hk⟩) | hrest)
      · exact Or.inl hacc
      · exact Or.inr ⟨List.mem_cons_self _ _, hk⟩
      · exact Or.inr ⟨List.mem_cons_of_mem _ hrest.1, hrest.2⟩
    · rintro (hacc | ⟨hmem, hk⟩)
      · exact Or.inl (Or.inl hacc)
      · rcases List.mem_cons.mp hmem with rfl | hrest
        · exact Or.inl (Or.inr ⟨rfl, hk⟩)
        · exact Or.inr ⟨hrest, hk⟩

lemma nodup_keys_foldl_addrMatchStep (ra : String) (geo : List String) :
    ∀ (kws : List String) (acc : List (String × String)),
      (acc.map Prod.fst).Nodup →
      ((kws.foldl (addrMatchStep ra geo) acc).map Prod.fst).Nodup := by
  intro kws
  induction kws with
  | nil => intro acc h; exact h
  | cons k rest ih =>
    intro acc h
    rw [List.foldl_cons]
    exact ih _ (nodup_keys_addrMatchStep ra geo acc k h)

lemma addrMatches_keys_nodup (kws : List String) (c : CandidateRow) :
    ((addrMatches kws c).map Prod.fst).Nodup :=
  nodup_keys_foldl_addrMatchStep _ _ kws [] (by simp)

lemma mem_addrMatches_keys (kws : List String) (c : CandidateRow) (kw : String) :
    kw ∈ (addrMatches kws c).map Prod.fst ↔
      kw ∈ kws ∧ kw ≠ "" ∧ (strContains (lowerAddress c) kw = true
        ∨ ∃ ct ∈ lowerGeo c, strContains ct kw = true) := by
  rw [addrMatches, keys_foldl_addrMatchStep]
  simp

lemma addressBonus_eq_min (kws : List String) (c : CandidateRow) :
    addressBonus kws c = min (3/10) ((1/10) * ((addrMatches kws c).length : ℚ)) := by
  unfold addressBonus
  by_cases hm : addrMatches kws c = []
  · rw [if_neg (by simpa using hm)]
    rw [hm]
    norm_num
  · rw [if_pos (by simpa using hm)]
    rcases le_or_lt ((1/10 : ℚ) * ((addrMatches kws c).length : ℚ)) (3/10) with h | h
    · rw [if_neg (by exact not_lt.mpr h), min_eq_right h]
    · rw [if_pos h, min_eq_left h.le]

/-- Claim C6: the DOB bonus is exactly `+0.3` on an exact structured
birth-date match and exactly `+0.15` on a partial identifier-blob
match, never both; the address bonus is `+0.1` per distinct keyword
found case-insensitively in the address or the recent-geography country
strings, capped at `+0.3`; and a resolve candidate with an exact DOB
match and two distinct matched address keywords gets exactly `+0.5`
added on top of its pre-bonus blend. -/
theorem resolve_bonus_additivity :
    (∀ (bd : String) (c : CandidateRow), bd ≠ "" → exactDobMatch bd c = true →
      dobBonusPair (some bd) c = (3/10, ["birth_date"]))
    ∧ (∀ (bd : String) (c : CandidateRow), bd ≠ "" → exactDobMatch bd c = false →
        partialDobMatch bd c = true →
        dobBonusPair (some bd) c = (3/20, ["id_info_match"]))
    ∧ (∀ (kws : List String) (c : CandidateRow),
        addressBonus kws c = min (3/10) ((1/10) * ((addrMatches kws c).length : ℚ))
        ∧ ((addrMatches kws c).map Prod.fst).Nodup
        ∧ (∀ kw, kw ∈ (addrMatches kws c).map Prod.fst ↔
            kw ∈ kws ∧ kw ≠ "" ∧ (strContains (lowerAddress c) kw = true
              ∨ ∃ ct ∈ lowerGeo c, strContains ct kw = true)))
    ∧ (∀ (search : String → Nat → List CandidateRow)
        (embed : List String → Except Unit (List (List ℚ)))
        (sim : List ℚ → List ℚ → ℚ) (fl : String → Option (List String))
        (name : Option String) (bd : String) (extra : Option (List String))
        (us : Bool) (tk : Nat),
        ∀ r ∈ (resolve_graphrag search embed sim fl name (some bd) extra us tk).candidates,
          bd ≠ "" → exactDobMatch bd r.raw = true →
          (addrMatches (normalizeKws extra) r.raw).length = 2 →
          r.composite_score
            = (match resolveSemSimsOf search embed sim name us tk with
              | some _ => (3/5) * r.semantic_score + (2/5) * r.fuzzy_score
              | none => 1 * r.fuzzy_score) + 1/2) := by
  refine ⟨?_, ?_, ?_, ?_⟩
  · intro bd c h0 h
    simp [dobBonusPair, h0, h]
  · intro bd c h0 he hp
    simp [dobBonusPair, h0, he, hp]
  · intro kws c
    exact ⟨addressBonus_eq_min kws c, addrMatches_keys_nodup kws c,
      mem_addrMatches_keys kws c⟩
  · intro search embed sim fl name bd extra us tk r hr h0 hexact hlen
    obtain ⟨i, c, rfl⟩ := mem_resolve_candidates search embed sim fl name (some bd)
      extra us tk r hr
    rw [scoreOne_raw] at hexact hlen
    rw [scoreOne_composite]
    have hdob : (dobBonusPair (some bd) c).1 = 3/10 := by
      simp [dobBonusPair, h0, hexact]
    have haddr : addressBonus (normalizeKws extra) c = 1/5 := by
      rw [addressBonus_eq_min, hlen]
      norm_num
    rw [hdob, haddr]
    ring

/-- The candidate used by the C6 witness: exact birth date and two
matching address keywords (one in the residential address, one in the
recent-geography countries). -/
def cLondon : CandidateRow :=
  { id := "p1", name := "john smith", ty := "Person", score := some 4,
    basic_info := some ⟨some "1990-01-01", some "10 King St, London"⟩,
    geo_profile := some ["France"] }

/-- Witness for C6: with an exact DOB match and the two matched
keywords `london` and `france`, the candidate's composite is its
lexical pre-bonus score plus exactly `0.5`. -/
theorem resolve_bonus_additivity_witness :
    ∃ r ∈ (resolve_graphrag (fun _ _ => [cLondon]) (fun _ => .error ())
        (fun _ _ => 0) (fun _ => none) (some "john smith") (some "1990-01-01")
        (some ["london", "france"]) false 5).candidates,
      r.composite_score = 1 * r.fuzzy_score + 1/2 := by
  have hsem : resolveSemSimsOf (fun _ _ => [cLondon]) (fun _ => .error ())
      (fun _ _ => 0) (some "john smith") false 5 = none := by
    unfold resolveSemSimsOf resolveCandidatesOf
    simp +decide [trimStr]
  have hmem : scoreOne (some "1990-01-01") (normalizeKws (some ["london", "france"]))
      (resolveSemSimsOf (fun _ _ => [cLondon]) (fun _ => .error ()) (fun _ _ => 0)
        (some "john smith") false 5) 0 cLondon
      ∈ (resolve_graphrag (fun _ _ => [cLondon]) (fun _ => .error ())
          (fun _ _ => 0) (fun _ => none) (some "john smith") (some "1990-01-01")
          (some ["london", "france"]) false 5).candidates := by
    rw [resolve_candidates_eq _ _ _ _ _ _ _ _ _
      (by simp +decide [resolveCandidatesOf, trimStr])]
    simp +decide [resolveCandidatesOf, trimStr, List.insertionSort,
      List.orderedInsert, List.enum, List.enumFrom]
  refine ⟨_, hmem, ?_⟩
  have h4 := resolve_bonus_additivity.2.2.2 (fun _ _ => [cLondon]) (fun _ => .error ())
    (fun _ _ => 0) (fun _ => none) (some "john smith") "1990-01-01"
    (some ["london", "france"]) false 5 _ hmem (by decide)
    (by rw [scoreOne_raw]; decide)
    (by rw [scoreOne_raw]; decide)
  rw [h4, hsem]

/-! ## Claim C7 — graceful, deterministic degradation on embedding failure -/

/-- An embedding call failure as the source treats it: the call raised,
or returned an empty result, or returned a result whose length does not
match the submitted texts. -/
def embedFailed (res : Except Unit (List (List ℚ))) (texts : List String) : Prop :=
  match res with
  | .error _ => True
  | .ok embs => embs = [] ∨ embs.length ≠ texts.length

/-- The texts a resolve call submits to the embedding provider. -/
def resolveTextsOf (search : String → Nat → List CandidateRow)
    (name : Option String) (tk : Nat) : List String :=
  resolveTexts (resolveCandidatesOf search name tk) (trimStr (name.getD "")) name

lemma scoreOne_semantic_zero (bd : Option String) (kws : List String)
    (i : Nat) (c : CandidateRow) :
    (scoreOne bd kws none i c).semantic_score = 0 := rfl

/-- A failed embedding call leaves the `sem_sims` state empty. -/
lemma resolveSemSimsOf_none_of_failed (search : String → Nat → List CandidateRow)
    (embed : List String → Except Unit (List (List ℚ)))
    (sim : List ℚ → List ℚ → ℚ) (name : Option String) (tk : Nat)
    (h : embedFailed (embed (resolveTextsOf search name tk)) (resolveTextsOf search name tk)) :
    resolveSemSimsOf search embed sim name true tk = none := by
  unfold resolveTextsOf resolveTexts at h
  unfold resolveSemSimsOf
  by_cases hempty : (resolveCandidatesOf search name tk).isEmpty
  · simp [hempty]
  · simp only [hempty, if_false, if_true]
    unfold resolveSemSims resolveTexts
    cases hres : embed (((pyOrS (some (trimStr (name.getD "")))
        (some (name.getD ""))).getD "")
          :: (resolveCandidatesOf search name tk).map buildNodeText) with
    | error e => rfl
    | ok embs =>
      unfold embedFailed at h
      rw [hres] at h
      simp only at h ⊢
      rcases h with h | h
      · subst h
        simp
      · simp only [List.length_cons, List.length_map] at h
        simp [h]

/-- Claim C7: when semantic scoring is requested and the embedding call
fails (raises, or returns an empty or wrong-length result), the request
still succeeds: any two failing providers produce the very same output
(deterministic degradation), and every returned candidate carries a
zero semantic score and the lexical-only composite
`1.0*fuzzy + bonuses`. -/
theorem resolve_degrades_deterministically
    (search : String → Nat → List CandidateRow)
    (embed1 embed2 : List String → Except Unit (List (List ℚ)))
    (sim : List ℚ → List ℚ → ℚ) (fl : String → Option (List String))
    (name bd : Option String) (extra : Option (List String)) (tk : Nat)
    (h1 : embedFailed (embed1 (resolveTextsOf search name tk)) (resolveTextsOf search name tk))
    (h2 : embedFailed (embed2 (resolveTextsOf search name tk)) (resolveTextsOf search name tk)) :
    resolve_graphrag search embed1 sim fl name bd extra true tk
      = resolve_graphrag search embed2 sim fl name bd extra true tk
    ∧ ∀ r ∈ (resolve_graphrag search embed1 sim fl name bd extra true tk).candidates,
        r.semantic_score = 0
        ∧ r.composite_score = 1 * r.fuzzy_score + (dobBonusPair bd r.raw).1
            + addressBonus (normalizeKws extra) r.raw := by
  have e1 := resolveSemSimsOf_none_of_failed search embed1 sim name tk h1
  have e2 := resolveSemSimsOf_none_of_failed search embed2 sim name tk h2
  constructor
  · unfold resolve_graphrag
    rw [e1, e2]
  · intro r hr
    obtain ⟨i, c, rfl⟩ := mem_resolve_candidates search embed1 sim fl name bd extra
      true tk r hr
    rw [e1]
    refine ⟨scoreOne_semantic_zero _ _ _ _, ?_⟩
    rw [scoreOne_raw, scoreOne_composite]

/-- Witness for C7: an empty-result provider and a raising provider
yield identical outputs on the same one-candidate query. -/
theorem resolve_degrades_deterministically_witness :
    resolve_graphrag (fun _ _ => [cAcme]) (fun _ => .ok []) (fun _ _ => 0)
        (fun _ => none) (some "acme") none none true 5
      = resolve_graphrag (fun _ _ => [cAcme]) (fun _ => .error ()) (fun _ _ => 0)
        (fun _ => none) (some "acme") none none true 5 :=
  (resolve_degrades_deterministically (fun _ _ => [cAcme]) (fun _ => .ok [])
    (fun _ => .error ()) (fun _ _ => 0) (fun _ => none) (some "acme") none none 5
    (Or.inl rfl) trivial).1

/-! ## Risk Rule Evaluation Engine (`app/services/risk_service.py`)

`evaluate_kb_risk` in its transfer-payload mode (`{transfers,
beneficiary_name}`).  The `{entity_id}` mode only derives the transfer
list from the entity's recorded transactions (capped at 100) before
running the very same evaluation, so the engine core is a function of
the KB snapshot, the transfer list and the beneficiary name. -/

/-- A transfer record; every field is optional, mirroring the loosely
typed payload dicts (`from`/`from_id`, `amount_cny`/`amount`,
`date`/`time`, `to_region`/`region` fallbacks are resolved with Python
`or`-truthiness). -/
structure Transfer where
  fromAcct : Option String := none
  fromId : Option String := none
  toAcct : Option String := none
  toId : Option String := none
  amountCny : Option ℚ := none
  amount : Option ℚ := none
  date : Option String := none
  time : Option String := none
  toRegion : Option String := none
  region : Option String := none
deriving DecidableEq, Repr

/-- Python `t.get("amount_cny") or t.get("amount")`. -/
def transferAmount (t : Transfer) : Option ℚ := pyOrQ t.amountCny t.amount

/-- Python `t.get("from") or t.get("from_id")`. -/
def transferFrom (t : Transfer) : Option String := pyOrS t.fromAcct t.fromId

/-- Python `t.get("to") or t.get("to_id")`. -/
def transferTo (t : Transfer) : Option String := pyOrS t.toAcct t.toId

/-- Python `t.get("date") or t.get("time")`. -/
def transferDate (t : Transfer) : Option String := pyOrS t.date t.time

/-- Python `t.get("to_region") or t.get("region")`. -/
def transferRegion (t : Transfer) : Option String := pyOrS t.toRegion t.region

/-- The truthy values of a string field over the transfer list (the
comprehensions with an `if t.get(...) or t.get(...)` guard). -/
def truthyVals (f : Transfer → Option String) (ts : List Transfer) : List String :=
  ts.filterMap fun t =>
    match f t with
    | some s => if s = "" then none else some s
    | none => none

/-- A deterministic rule document: the only supported match key is
`counterparty_name_in_sanctions`; the effect is a fixed score; missing
JSON fields stay optional. -/
structure DetRule where
  id : Option String := none
  category : Option String := none
  matchSanctions : Bool := false
  effectScore : Option ℚ := none
deriving DecidableEq, Repr

/-- A weighted rule document: feature weights, a threshold (default 1.0
when absent), a category, and the optional
`hints.small_amount_cny_max` ceiling. -/
structure WRule where
  id : Option String := none
  category : Option String := none
  weights : List (String × ℚ) := []
  threshold : Option ℚ := none
  hintSmallMax : Option ℚ := none
deriving DecidableEq, Repr

/-- The loaded KB snapshot: rule documents and reference lists. -/
structure KB where
  deterministic : List DetRule := []
  weighted : List WRule := []
  sanctioned_parties : List String := []
  high_risk_regions : List String := []
deriving DecidableEq, Repr

/-- A diagnostic record of the weighted phase. -/
structure WDetail where
  id : Option String
  category : Option String
  matched_features : List String
  raw_score : ℚ
  threshold : ℚ
  passed : Bool
  feature_weights : List (String × ℚ)
deriving DecidableEq, Repr

/-- Append a truthy category if not already present (both phases guard
with `if cat and cat not in labels`). -/
def labelAdd (labels : List String) (cat : Option String) : List String :=
  match cat with
  | some c => if c ≠ "" ∧ c ∉ labels then labels ++ [c] else labels
  | none => labels

/-- The running state of the deterministic phase. -/
structure DetState where
  score : ℚ
  triggers : List String
  labels : List String
deriving DecidableEq, Repr

/-- One deterministic rule: on a sanctions match record the trigger,
raise the score to the rule's effect score, add the category. -/
def detStep (sanctioned : Bool) (st : DetState) (rule : DetRule) : DetState :=
  if rule.matchSanctions && sanctioned then
    { score := max st.score (rule.effectScore.getD 0),
      triggers := st.triggers ++ [rule.id.getD "unknown"],
      labels := labelAdd st.labels rule.category }
  else st

/-- The transfer-derived feature context computed before the weighted
loop (all flags `False` on an empty transfer list). -/
structure FeatureCtx where
  amounts : List ℚ
  multi : Bool
  sameBen : Bool
  consec : Bool
  crossBorder : Bool
  offshore : Bool
  freq : Bool
deriving DecidableEq, Repr

/-- Compute the feature context from the transfer list and the
high-risk-region list. -/
def featureCtx (highRisk : List String) (ts : List Transfer) : FeatureCtx :=
  let amounts := ts.filterMap transferAmount
  if ts.isEmpty then ⟨amounts, false, false, false, false, false, false⟩
  else
    let fromAccounts := (truthyVals transferFrom ts).dedup
    let toAccounts := (truthyVals transferTo ts).dedup
    let dates := (truthyVals transferDate ts).dedup
    let regions := (truthyVals transferRegion ts).dedup
    ⟨amounts,
      decide (3 ≤ fromAccounts.length),
      decide (toAccounts.length = 1),
      decide (5 ≤ dates.length),
      decide (1 < regions.length),
      !regions.isEmpty && regions.all (· ∈ highRisk) && decide (toAccounts.length = 1),
      decide (3 ≤ ts.length)⟩

/-- Python `max(list)` (guarded nonempty at every use site). -/
def maxQ (l : List ℚ) : ℚ :=
  match l with
  | [] => 0
  | x :: xs => xs.foldl max x

/-- The state threaded through the weighted loop.  `small` and `total`
are the `small_amount_flag` / `total_volume_flag` variables: they are
re-derived from a rule's `hints` when present and otherwise KEEP the
value left by the previous iteration (they are loop variables in the
source, not per-rule locals). -/
structure WState where
  small : Bool
  total : Bool
  score : ℚ
  labels : List String
  matchedGlobal : List String
  details : List WDetail
deriving DecidableEq, Repr

/-- The `small_amount` flag a rule sees: recomputed from the rule's
ceiling hint when present (and there are amounts), else carried over. -/
def hintSmall (ctx : FeatureCtx) (s : WState) (w : WRule) : Bool :=
  match w.hintSmallMax with
  | some lm => if ctx.amounts ≠ [] then decide (maxQ ctx.amounts ≤ lm) else s.small
  | none => s.small

/-- The `total_volume` flag a rule sees: recomputed as
`sum(amounts) ≥ 3*ceiling` when the hint is present, else carried
over. -/
def hintTotal (ctx : FeatureCtx) (s : WState) (w : WRule) : Bool :=
  match w.hintSmallMax with
  | some lm => if ctx.amounts ≠ [] then decide (3 * lm ≤ ctx.amounts.sum) else s.total
  | none => s.total

/-- The iteration order of the `feature_flags` dict in the source. -/
def featureOrder : List String :=
  ["small_amount", "multi_accounts", "consecutive_days", "same_beneficiary",
    "total_volume", "cross_border", "same_offshore_beneficiary", "frequency"]

/-- The truth value of a named feature under the current flags. -/
def flagValue (ctx : FeatureCtx) (small total : Bool) (f : String) : Bool :=
  if f = "small_amount" then small
  else if f = "multi_accounts" then ctx.multi
  else if f = "consecutive_days" then ctx.consec
  else if f = "same_beneficiary" then ctx.sameBen
  else if f = "total_volume" then total
  else if f = "cross_border" then ctx.crossBorder
  else if f = "same_offshore_beneficiary" then ctx.offshore
  else if f = "frequency" then ctx.freq
  else false

/-- The features a rule matches: currently true and present in the
rule's weight map, in `feature_flags` iteration order. -/
def ruleMatched (ctx : FeatureCtx) (s : WState) (w : WRule) : List String :=
  featureOrder.filter fun f =>
    flagValue ctx (hintSmall ctx s w) (hintTotal ctx s w) f && (w.weights.lookup f).isSome

/-- The matched features paired with their weights. -/
def ruleFeatureWeights (ctx : FeatureCtx) (s : WState) (w : WRule) :
    List (String × ℚ) :=
  (ruleMatched ctx s w).map fun f => (f, (w.weights.lookup f).getD 0)

/-- The rule's raw score: the sum of the weights of its matched
features. -/
def ruleRawScore (ctx : FeatureCtx) (s : WState) (w : WRule) : ℚ :=
  ((ruleMatched ctx s w).map fun f => (w.weights.lookup f).getD 0).sum

/-- The diagnostic record of one weighted rule. -/
def ruleDetail (ctx : FeatureCtx) (s : WState) (w : WRule) : WDetail :=
  ⟨w.id, w.category, ruleMatched ctx s w, ruleRawScore ctx s w, w.threshold.getD 1,
    decide (w.threshold.getD 1 ≤ ruleRawScore ctx s w), ruleFeatureWeights ctx s w⟩

/-- One weighted rule: always append the diagnostic; on pass add the
category, union the matched features into the global list and raise the
score to `raw*100`; carry the (possibly re-derived) small/total flags
to the next rule. -/
def wStep (ctx : FeatureCtx) (s : WState) (w : WRule) : WState :=
  if decide (w.threshold.getD 1 ≤ ruleRawScore ctx s w) then
    { small := hintSmall ctx s w, total := hintTotal ctx s w,
      score := max s.score (ruleRawScore ctx s w * 100),
      labels := labelAdd s.labels w.category,
      matchedGlobal := (ruleMatched ctx s w).foldl
        (fun g mf => if mf ∈ g then g else g ++ [mf]) s.matchedGlobal,
      details := s.details ++ [ruleDetail ctx s w] }
  else
    { small := hintSmall ctx s w, total := hintTotal ctx s w,
      score := s.score, labels := s.labels, matchedGlobal := s.matchedGlobal,
      details := s.details ++ [ruleDetail ctx s w] }

/-- Round half to even (Python `round`). -/
def roundHalfEven (q : ℚ) : Int :=
  if q - ⌊q⌋ < 1/2 then ⌊q⌋
  else if (1/2 : ℚ) < q - ⌊q⌋ then ⌊q⌋ + 1
  else if ⌊q⌋ % 2 = 0 then ⌊q⌋ else ⌊q⌋ + 1

/-- Python `round(x, 2)` (on the idealised exact rationals). -/
def round2 (q : ℚ) : ℚ := (roundHalfEven (q * 100) : ℚ) / 100

/-- The result record of `evaluate_kb_risk`. -/
structure RiskResult where
  score : ℚ
  labels : List String
  deterministic_triggers : List String
  matched_features : List String
  weighted_details : List WDetail
  explanation : String
  input_transfer_count : Nat
deriving DecidableEq, Repr

/-- Model of `evaluate_kb_risk` (`app/services/risk_service.py`),
transfer-payload mode. -/
def evaluate_kb_risk (kb : KB) (transfers : List Transfer)
    (beneficiary_name : String) : RiskResult :=
  let sanctioned := beneficiary_name ≠ ""
    && (kb.sanctioned_parties.map upperStr).contains (upperStr beneficiary_name)
  let det := kb.deterministic.foldl (detStep sanctioned) ⟨0, [], []⟩
  let ctx := featureCtx kb.high_risk_regions transfers
  let wf := kb.weighted.foldl (wStep ctx) ⟨false, false, det.score, det.labels, [], []⟩
  let parts :=
    (if det.triggers ≠ [] then
      ["Deterministic triggers: " ++ String.intercalate ", " det.triggers] else [])
    ++ (if wf.matchedGlobal ≠ [] then
      ["Matched features: " ++ String.intercalate ", " wf.matchedGlobal] else [])
  { score := round2 wf.score,
    labels := wf.labels,
    deterministic_triggers := det.triggers,
    matched_features := wf.matchedGlobal,
    weighted_details := wf.details,
    explanation := String.intercalate "; " (if parts = [] then ["No rules matched"] else parts),
    input_transfer_count := transfers.length }

/-! ## Risk engine: supporting lemmas -/

lemma mem_foldl_union_left :
    ∀ (l g : List String) (x : String), x ∈ g →
      x ∈ l.foldl (fun acc mf => if mf ∈ acc then acc else acc ++ [mf]) g := by
  intro l
  induction l with
  | nil => intro g x hx; exact hx
  | cons a l ih =>
    intro g x hx
    rw [List.foldl_cons]
    apply ih
    by_cases ha : a ∈ g
    · rw [if_pos ha]; exact hx
    · rw [if_neg ha]; exact List.mem_append_left _ hx

lemma mem_foldl_union_right :
    ∀ (l g : List String) (x : String), x ∈ l →
      x ∈ l.foldl (fun acc mf => if mf ∈ acc then acc else acc ++ [mf]) g := by
  intro l
  induction l with
  | nil => intro g x hx; exact absurd hx (List.not_mem_nil x)
  | cons a l ih =>
    intro g x hx
    rw [List.foldl_cons]
    rcases List.mem_cons.mp hx with rfl | hxl
    · apply mem_foldl_union_left
      by_cases ha : x ∈ g
      · rw [if_pos ha]; exact ha
      · rw [if_neg ha]; exact List.mem_append_right _ (List.mem_singleton_self x)
    · exact ih _ x hxl

lemma labelAdd_mem (l : List String) (c : String) (hc : c ≠ "") :
    c ∈ labelAdd l (some c) := by
  by_cases hmem : c ∈ l
  · simp [labelAdd, hmem]
  · simp [labelAdd, hc, hmem]

lemma flagValue_mem_featureOrder (ctx : FeatureCtx) (small total : Bool)
    (f : String) (h : flagValue ctx small total f = true) : f ∈ featureOrder := by
  unfold flagValue at h
  split_ifs at h with h1 h2 h3 h4 h5 h6 h7 h8
  · subst h1; decide
  · subst h2; decide
  · subst h3; decide
  · subst h4; decide
  · subst h5; decide
  · subst h6; decide
  · subst h7; decide
  · subst h8; decide

lemma lookup_eq_none_of_not_mem_keys (k : String) :
    ∀ (l : List (String × ℚ)), k ∉ l.map Prod.fst → l.lookup k = none := by
  intro l
  induction l with
  | nil => intro _; rfl
  | cons p rest ih =>
    intro hk
    rw [List.map_cons, List.mem_cons] at hk
    push_neg at hk
    have hne : (k == p.1) = false := by
      simp [hk.1]
    calc ((p.1, p.2) :: rest).lookup k = rest.lookup k := by
          simp [List.lookup, hne]
      _ = none := ih hk.2

lemma filtered_sum_agree (flag : String → Bool) (k : String) (v : ℚ)
    (rest : List (String × ℚ)) :
    ∀ (L : List String), k ∉ L →
      ((L.filter fun f => flag f && (((k, v) :: rest).lookup f).isSome).map
        fun f => (((k, v) :: rest).lookup f).getD 0).sum
      = ((L.filter fun f => flag f && (rest.lookup f).isSome).map
        fun f => (rest.lookup f).getD 0).sum := by
  intro L
  induction L with
  | nil => intro _; rfl
  | cons f L' ih =>
    intro hk
    rw [List.mem_cons] at hk
    push_neg at hk
    have hfk : (f == k) = false := by
      rw [beq_eq_false_iff_ne]
      exact fun hfe => hk.1 hfe.symm
    have hlook : ((k, v) :: rest).lookup f = rest.lookup f := by
      simp [List.lookup, hfk]
    rw [List.filter_cons, List.filter_cons, hlook]
    by_cases hcond : (flag f && (rest.lookup f).isSome) = true
    · rw [if_pos hcond, if_pos hcond, List.map_cons, List.map_cons, List.sum_cons,
        List.sum_cons, hlook, ih hk.2]
    · rw [if_neg hcond, if_neg hcond, ih hk.2]

lemma filtered_sum_cons (flag : String → Bool) (k : String) (v : ℚ)
    (rest : List (String × ℚ)) (hnone : rest.lookup k = none) :
    ∀ (L : List String), L.Nodup →
      ((L.filter fun f => flag f && (((k, v) :: rest).lookup f).isSome).map
        fun f => (((k, v) :: rest).lookup f).getD 0).sum
      = ((L.filter fun f => flag f && (rest.lookup f).isSome).map
          fun f => (rest.lookup f).getD 0).sum
        + (if flag k ∧ k ∈ L then v else 0) := by
  intro L
  induction L with
  | nil => intro _; simp
  | cons f L' ih =>
    intro hnodup
    rw [List.nodup_cons] at hnodup
    by_cases hfk : f = k
    · subst hfk
      have hlookc : ((f, v) :: rest).lookup f = some v := by
        simp [List.lookup]
      rw [List.filter_cons, List.filter_cons, hlookc, hnone]
      have hagree := filtered_sum_agree flag f v rest L' hnodup.1
      by_cases hflag : flag f = true
      · rw [if_pos (by simp [hflag, hlookc]), if_neg (by simp),
          List.map_cons, List.sum_cons, hlookc, hagree,
          if_pos ⟨hflag, List.mem_cons_self f L'⟩]
        simp [add_comm]
      · rw [if_neg (by simp [hflag]), if_neg (by simp [hflag]), hagree,
          if_neg (by simp [hflag])]
        simp
    · have hlook : ((k, v) :: rest).lookup f = rest.lookup f := by
        simp [List.lookup, show (f == k) = false by simp [hfk]]
      rw [List.filter_cons, List.filter_cons, hlook]
      have hmemiff : (flag k ∧ k ∈ f :: L') ↔ (flag k ∧ k ∈ L') := by
        constructor
        · rintro ⟨hf, hm⟩
          rcases List.mem_cons.mp hm with h | h
          · exact absurd h.symm hfk
          · exact ⟨hf, h⟩
        · rintro ⟨hf, hm⟩
          exact ⟨hf, List.mem_cons_of_mem _ hm⟩
      by_cases hcond : (flag f && (rest.lookup f).isSome) = true
      · rw [if_pos hcond, if_pos hcond, List.map_cons, List.map_cons, List.sum_cons,
          List.sum_cons, hlook, ih hnodup.2, if_congr hmemiff rfl rfl]
        ring
      · rw [if_neg hcond, if_neg hcond, ih hnodup.2, if_congr hmemiff rfl rfl]

lemma rawScore_eq_weights_sum (flag : String → Bool)
    (hflag : ∀ f, flag f = true → f ∈ featureOrder) :
    ∀ (ws : List (String × ℚ)), (ws.map Prod.fst).Nodup →
      ((featureOrder.filter fun f => flag f && (ws.lookup f).isSome).map
        fun f => (ws.lookup f).getD 0).sum
      = ((ws.filter fun p => flag p.1).map Prod.snd).sum := by
  intro ws
  induction ws with
  | nil =>
    intro _
    have : (featureOrder.filter fun f => flag f && (([] : List (String × ℚ)).lookup f).isSome) = [] := by
      apply List.filter_eq_nil_iff.mpr
      intro f _
      simp [List.lookup]
    rw [this]
    rfl
  | cons p rest ih =>
    intro hnodup
    rw [List.map_cons, List.nodup_cons] at hnodup
    have hnone : rest.lookup p.1 = none := lookup_eq_none_of_not_mem_keys _ _ hnodup.1
    have hcons := filtered_sum_cons flag p.1 p.2 rest hnone featureOrder (by decide)
    rw [show ((p.1, p.2) :: rest) = p :: rest by rfl] at hcons
    rw [hcons, ih hnodup.2, List.filter_cons]
    split_ifs with h1 h2 h3
    · rw [List.map_cons, List.sum_cons]
      ring
    · exact absurd h1.1 h2
    · exact absurd ⟨h3, hflag _ h3⟩ h1
    · simp

lemma wStep_details (ctx : FeatureCtx) (s : WState) (w : WRule) :
    (wStep ctx s w).details = s.details ++ [ruleDetail ctx s w] := by
  unfold wStep
  split_ifs <;> rfl

lemma foldl_wStep_details_length (ctx : FeatureCtx) :
    ∀ (rules : List WRule) (s : WState),
      ((rules.foldl (wStep ctx) s).details).length = s.details.length + rules.length := by
  intro rules
  induction rules with
  | nil => intro s; simp
  | cons w rest ih =>
    intro s
    rw [List.foldl_cons, ih, wStep_details]
    simp
    omega

/-! ## Claim C8 — weighted rule evaluation -/

/-- Claim C8: for every weighted rule, the raw score is the sum of the
weights of the features that are both in the rule's weight map and
currently true; the rule passes exactly when `raw_score ≥ threshold`
(equality passes); a diagnostic `{id, category, matched_features,
raw_score, threshold, passed}` is appended for every rule, pass or
fail; and on pass the category joins the labels, the matched features
are unioned into the global list, and the score is raised to
`max(score, raw_score × 100)` — a failing rule changes none of them. -/
theorem weighted_rule_evaluation :
    (∀ (ctx : FeatureCtx) (s : WState) (w : WRule),
      (wStep ctx s w).details = s.details ++ [ruleDetail ctx s w]
      ∧ ((ruleDetail ctx s w).passed = true ↔
          w.threshold.getD 1 ≤ ruleRawScore ctx s w)
      ∧ (w.threshold.getD 1 ≤ ruleRawScore ctx s w →
          (wStep ctx s w).score = max s.score (ruleRawScore ctx s w * 100)
          ∧ (∀ cat, w.category = some cat → cat ≠ "" → cat ∈ (wStep ctx s w).labels)
          ∧ (∀ f ∈ ruleMatched ctx s w, f ∈ (wStep ctx s w).matchedGlobal))
      ∧ (¬ w.threshold.getD 1 ≤ ruleRawScore ctx s w →
          (wStep ctx s w).score = s.score ∧ (wStep ctx s w).labels = s.labels
          ∧ (wStep ctx s w).matchedGlobal = s.matchedGlobal))
    ∧ (∀ (ctx : FeatureCtx) (s : WState) (w : WRule),
        (w.weights.map Prod.fst).Nodup →
        ruleRawScore ctx s w
          = ((w.weights.filter fun p =>
              flagValue ctx (hintSmall ctx s w) (hintTotal ctx s w) p.1).map
                Prod.snd).sum)
    ∧ (∀ (kb : KB) (ts : List Transfer) (ben : String),
        (evaluate_kb_risk kb ts ben).weighted_details.length = kb.weighted.length) := by
  refine ⟨?_, ?_, ?_⟩
  · intro ctx s w
    refine ⟨wStep_details ctx s w, by simp [ruleDetail], ?_, ?_⟩
    · intro hpass
      unfold wStep
      rw [if_pos (by simpa using hpass)]
      refine ⟨rfl, ?_, ?_⟩
      · intro cat hcat hne
        show cat ∈ labelAdd s.labels w.category
        rw [hcat]
        exact labelAdd_mem s.labels cat hne
      · intro f hf
        exact mem_foldl_union_right _ _ _ hf
    · intro hfail
      unfold wStep
      rw [if_neg (by simpa using hfail)]
      exact ⟨rfl, rfl, rfl⟩
  · intro ctx s w hnodup
    unfold ruleRawScore ruleMatched
    exact rawScore_eq_weights_sum _
      (fun f hf => flagValue_mem_featureOrder ctx _ _ f hf) w.weights hnodup
  · intro kb ts ben
    unfold evaluate_kb_risk
    simp only
    rw [foldl_wStep_details_length]
    simp

/-- Three same-beneficiary transfers: `frequency` and
`same_beneficiary` both hold. -/
def trBoundary : List Transfer :=
  [{ fromAcct := some "a", toAcct := some "z", amountCny := some 10, date := some "d1" },
   { fromAcct := some "b", toAcct := some "z", amountCny := some 10, date := some "d2" },
   { fromAcct := some "c", toAcct := some "z", amountCny := some 10, date := some "d3" }]

/-- A rule whose matched weights sum to exactly its threshold. -/
def wEq : WRule :=
  { id := some "wEq"
    category := some "structuring"
    weights := [("frequency", 1/2), ("same_beneficiary", 1/2)]
    threshold := some 1 }

/-- A rule whose matched weights fall below its threshold. -/
def wBelow : WRule :=
  { id := some "wBelow"
    category := some "freq-only"
    weights := [("frequency", 1/2)]
    threshold := some 1 }

/-- The KB of the C8 witness. -/
def kbBoundary : KB := { weighted := [wEq, wBelow] }

/-- The feature context of the C8 witness. -/
def ctxBoundary : FeatureCtx := featureCtx [] trBoundary

/-- The initial weighted-phase state of the C8 witness. -/
def wSInit : WState := ⟨false, false, 0, [], [], []⟩

/-- Witness for C8 at the boundary: a raw score exactly equal to the
threshold passes (and updates score/labels), a raw score one unit of
weight below fails; diagnostics are appended for both rules. -/
theorem weighted_rule_evaluation_witness :
    ((ruleDetail ctxBoundary wSInit wEq).passed = true
      ∧ ruleRawScore ctxBoundary wSInit wEq = 1 ∧ wEq.threshold.getD 1 = 1)
    ∧ ((ruleDetail ctxBoundary wSInit wBelow).passed = false
      ∧ ruleRawScore ctxBoundary wSInit wBelow = 1/2)
    ∧ (wStep ctxBoundary wSInit wEq).score = max wSInit.score (1 * 100)
    ∧ ("structuring" ∈ (wStep ctxBoundary wSInit wEq).labels)
    ∧ (wStep ctxBoundary wSInit wEq).details
        = wSInit.details ++ [ruleDetail ctxBoundary wSInit wEq]
    ∧ (evaluate_kb_risk kbBoundary trBoundary "").weighted_details.length
        = kbBoundary.weighted.length := by
  have h := weighted_rule_evaluation
  have hraw : ruleRawScore ctxBoundary wSInit wEq = 1 := by
    simp +decide [ruleRawScore, ruleMatched, ctxBoundary, featureCtx, trBoundary,
      truthyVals, transferFrom, transferTo, transferDate, transferRegion,
      transferAmount, pyOrS, pyOrQ, wEq, wSInit, hintSmall, hintTotal, flagValue,
      featureOrder, List.lookup, List.filter, List.filterMap, List.dedup, wBelow]
    norm_num
  have hrawB : ruleRawScore ctxBoundary wSInit wBelow = 1/2 := by
    simp +decide [ruleRawScore, ruleMatched, ctxBoundary, featureCtx, trBoundary,
      truthyVals, transferFrom, transferTo, transferDate, transferRegion,
      transferAmount, pyOrS, pyOrQ, wBelow, wSInit, hintSmall, hintTotal, flagValue,
      featureOrder, List.lookup, List.filter, List.filterMap, List.dedup]
  have h1 := (h.1 ctxBoundary wSInit wEq).2.1
  have hthr : wEq.threshold.getD 1 = 1 := by simp [wEq]
  have hpassEq : (ruleDetail ctxBoundary wSInit wEq).passed = true := by
    rw [h1, hthr, hraw]
  have h1B := (h.1 ctxBoundary wSInit wBelow).2.1
  have hthrB : wBelow.threshold.getD 1 = 1 := by simp [wBelow]
  have hfailB : (ruleDetail ctxBoundary wSInit wBelow).passed = false := by
    rw [← Bool.not_eq_true]
    rw [h1B, hthrB, hrawB]
    norm_num
  have hup := (h.1 ctxBoundary wSInit wEq).2.2.1 (by rw [hthr, hraw])
  refine ⟨⟨hpassEq, hraw, hthr⟩, ⟨hfailB, hrawB⟩, ?_, ?_, (h.1 ctxBoundary wSInit wEq).1,
    h.2.2 kbBoundary trBoundary ""⟩
  · rw [hup.1, hraw]
  · exact hup.2.1 "structuring" (by simp [wEq]) (by simp)

/-! ## Claim C9 — feature flags are NOT identical for every weighted rule -/

/-- A single small transfer. -/
def trSmall : List Transfer :=
  [{ fromAcct := some "a", toAcct := some "b", amountCny := some 100,
     date := some "2024-01-01", toRegion := some "X" }]

/-- A rule that supplies a `small_amount_cny_max` hint but matches
nothing. -/
def rHint : WRule :=
  { id := some "r1"
    category := some "c1"
    weights := []
    threshold := some 5
    hintSmallMax := some 200 }

/-- A hintless rule weighting `small_amount`. -/
def rNoHint : WRule :=
  { id := some "r2"
    category := some "c2"
    weights := [("small_amount", 1)]
    threshold := some 1 }

/-- The KB with the hinted rule first. -/
def kbOrderA : KB := { weighted := [rHint, rNoHint] }

/-- The same KB with the rules swapped. -/
def kbOrderB : KB := { weighted := [rNoHint, rHint] }

/-- Claim C9 fails on the code (code bug): the `small_amount` (and
`total_volume`) flags are loop variables that a rule's hints overwrite
for all SUBSEQUENT rules.  With the hinted rule `r1` first, the
hintless rule `r2` sees `small_amount = True` and passes; with `r2`
first it sees the initial `False` and fails — the feature value seen by
a rule depends on which rules precede it. -/
theorem weighted_features_order_dependence :
    ((evaluate_kb_risk kbOrderA trSmall "").weighted_details.map
        fun d => (d.id, d.passed))
      = [(some "r1", false), (some "r2", true)]
    ∧ ((evaluate_kb_risk kbOrderB trSmall "").weighted_details.map
        fun d => (d.id, d.passed))
      = [(some "r2", false), (some "r1", false)] := by
  constructor
  · simp +decide [evaluate_kb_risk, kbOrderA, trSmall, rHint, rNoHint, featureCtx,
      truthyVals, transferFrom, transferTo, transferDate, transferRegion,
      transferAmount, pyOrS, pyOrQ, wStep, ruleDetail, ruleRawScore, ruleMatched,
      ruleFeatureWeights, hintSmall, hintTotal, flagValue, featureOrder, maxQ,
      detStep, labelAdd, List.lookup, List.filter, List.filterMap, List.dedup,
      List.foldl, upperStr]
  · simp +decide [evaluate_kb_risk, kbOrderB, trSmall, rHint, rNoHint, featureCtx,
      truthyVals, transferFrom, transferTo, transferDate, transferRegion,
      transferAmount, pyOrS, pyOrQ, wStep, ruleDetail, ruleRawScore, ruleMatched,
      ruleFeatureWeights, hintSmall, hintTotal, flagValue, featureOrder, maxQ,
      detStep, labelAdd, List.lookup, List.filter, List.filterMap, List.dedup,
      List.foldl, upperStr]

/-! ## Claim C10 — no duplicate labels -/

lemma labelAdd_nodup (l : List String) (cat : Option String) (h : l.Nodup) :
    (labelAdd l cat).Nodup := by
  cases cat with
  | none => exact h
  | some c =>
    simp only [labelAdd]
    by_cases hc : c ≠ "" ∧ c ∉ l
    · rw [if_pos hc, List.nodup_append]
      exact ⟨h, List.nodup_singleton c, by simp [hc.2]⟩
    · rw [if_neg hc]
      exact h

lemma detStep_labels_nodup (sanctioned : Bool) (st : DetState) (rule : DetRule)
    (h : st.labels.Nodup) : (detStep sanctioned st rule).labels.Nodup := by
  unfold detStep
  split_ifs
  · exact labelAdd_nodup _ _ h
  · exact h

lemma foldl_detStep_labels_nodup (sanctioned : Bool) :
    ∀ (rules : List DetRule) (st : DetState), st.labels.Nodup →
      ((rules.foldl (detStep sanctioned) st).labels).Nodup := by
  intro rules
  induction rules with
  | nil => intro st h; exact h
  | cons r rest ih =>
    intro st h
    rw [List.foldl_cons]
    exact ih _ (detStep_labels_nodup sanctioned st r h)

lemma wStep_labels_nodup (ctx : FeatureCtx) (s : WState) (w : WRule)
    (h : s.labels.Nodup) : (wStep ctx s w).labels.Nodup := by
  unfold wStep
  split_ifs
  · exact labelAdd_nodup _ _ h
  · exact h

lemma foldl_wStep_labels_nodup (ctx : FeatureCtx) :
    ∀ (rules : List WRule) (s : WState), s.labels.Nodup →
      ((rules.foldl (wStep ctx) s).labels).Nodup := by
  intro rules
  induction rules with
  | nil => intro s h; exact h
  | cons w rest ih =>
    intro s h
    rw [List.foldl_cons]
    exact ih _ (wStep_labels_nodup ctx s w h)

/-- Claim C10: for every payload and KB snapshot the returned labels
are pairwise distinct — both the deterministic and the weighted phase
append a category only when it is not already present. -/
theorem evaluate_labels_nodup (kb : KB) (transfers : List Transfer)
    (beneficiary_name : String) :
    (evaluate_kb_risk kb transfers beneficiary_name).labels.Nodup := by
  unfold evaluate_kb_risk
  simp only
  exact foldl_wStep_labels_nodup _ _ _
    (foldl_detStep_labels_nodup _ _ _ List.nodup_nil)

end OIP
